import Mathlib

/-
Verification of the matching mods (`gurobi_optimods/matching.py`).

The bipartite path is embedded as follows: a scipy sparse adjacency matrix is
represented by its shape `n` and entry function `A : ℕ → ℕ → ℚ` (zero means no
stored entry); `sp.triu(adjacency.tocoo())` becomes `triu_entries`, listing the
upper-triangular nonzero coordinates in the row-major order `tocoo` produces.
The flow network built by `_maximum_bipartite_matching_scipy` is embedded by
`from_arc`, `to_arc`, `capacity`, `cost` and `balance`, mirroring the
`np.concatenate` construction line by line; `arcList` is the zip of `from_arc`
and `to_arc`.  The external engine (`solve_min_cost_flow`) is out of scope: a
solution is an arbitrary per-arc flow vector.  Since all arcs are pairwise
distinct (proved below), a flow vector aligned index-for-index with the arcs is
represented as a function `f : ℕ × ℕ → ℚ` on the arc values.  `GRB.INFINITY`
becomes the `none` case of an `Option ℚ` capacity.

The weighted path (`maximum_weighted_matching`) is embedded over the coo entry
list of the input matrix; the engine's binary solution is a `Bool` valuation of
the decision variables (a solved value `v.X > 0.5` for a binary variable means
`true`).  The pandas path and the type dispatch of `maximum_bipartite_matching`
are embedded with rows as label pairs plus a rest-of-row payload, and with an
explicit environment-acquisition counter standing for calls to `create_env`.
-/

namespace GurobiMatching

/-- Index of the synthetic source node: `source = G_nodes`. -/
def sourceIdx (n : ℕ) : ℕ := n

/-- Index of the synthetic sink node: `sink = G_nodes + 1`. -/
def sinkIdx (n : ℕ) : ℕ := n + 1

/-- `G = sp.triu(adjacency.tocoo())`: the upper-triangular nonzero coordinates
`(G.row, G.col)` of the adjacency matrix, in row-major order. -/
def triu_entries (n : ℕ) (A : ℕ → ℕ → ℚ) : List (ℕ × ℕ) :=
  (List.range n).flatMap (fun i =>
    ((List.range n).filter (fun j => decide (i ≤ j) && decide (A i j ≠ 0))).map
      (fun j => (i, j)))

/-- `from_arc = np.concatenate([np.repeat(source, nodes1.shape), G.row, nodes2, [sink]])`. -/
def from_arc (n : ℕ) (A : ℕ → ℕ → ℚ) (nodes1 nodes2 : List ℕ) : List ℕ :=
  nodes1.map (fun _ => sourceIdx n) ++ (triu_entries n A).map Prod.fst ++ nodes2
    ++ [sinkIdx n]

/-- `to_arc = np.concatenate([nodes1, G.col, np.repeat(sink, nodes2.shape), [source]])`. -/
def to_arc (n : ℕ) (A : ℕ → ℕ → ℚ) (nodes1 nodes2 : List ℕ) : List ℕ :=
  nodes1 ++ (triu_entries n A).map Prod.snd ++ nodes2.map (fun _ => sinkIdx n)
    ++ [sourceIdx n]

/-- `capacity = np.ones(from_arc.shape); capacity[-1] = GRB.INFINITY`
(`none` stands for the infinite capacity). -/
def capacity (m : ℕ) : List (Option ℚ) := (List.replicate m (some 1)).set (m - 1) none

/-- `cost = np.zeros(from_arc.shape); cost[-1] = -1.0`. -/
def cost (m : ℕ) : List ℚ := (List.replicate m 0).set (m - 1) (-1)

/-- `balance = np.zeros(G_nodes + 2)`. -/
def balance (n : ℕ) : List ℚ := List.replicate (n + 2) 0

/-- The network arcs as (tail, head) pairs, i.e. `zip(from_arc, to_arc)`. -/
def arcList (n : ℕ) (A : ℕ → ℕ → ℚ) (nodes1 nodes2 : List ℕ) : List (ℕ × ℕ) :=
  nodes1.map (fun u => (sourceIdx n, u)) ++ triu_entries n A
    ++ nodes2.map (fun v => (v, sinkIdx n)) ++ [(sinkIdx n, sourceIdx n)]

/-- Total flow entering node `v`. -/
def inflow (arcs : List (ℕ × ℕ)) (f : ℕ × ℕ → ℚ) (v : ℕ) : ℚ :=
  ((arcs.filter (fun a => decide (a.2 = v))).map f).sum

/-- Total flow leaving node `v`. -/
def outflow (arcs : List (ℕ × ℕ)) (f : ℕ × ℕ → ℚ) (v : ℕ) : ℚ :=
  ((arcs.filter (fun a => decide (a.1 = v))).map f).sum

/-- Capacity of an arc by value: since the arcs are pairwise distinct, the
positionally assigned capacities (all 1, except `capacity[-1] = ∞` for the
final `sink → source` arc) are equivalently read off from the arc itself. -/
def arcCap (n : ℕ) (a : ℕ × ℕ) : Option ℚ :=
  if a = (sinkIdx n, sourceIdx n) then none else some 1

/-- `f` respects the capacity of arc `a`. -/
def withinCap (n : ℕ) (f : ℕ × ℕ → ℚ) (a : ℕ × ℕ) : Prop :=
  match arcCap n a with
  | none => True
  | some c => f a ≤ c

/-- A feasible flow for the constructed network: nonnegative, within the arc
capacities, and conserving flow at every node (all balances are zero). -/
def Feasible (n : ℕ) (A : ℕ → ℕ → ℚ) (nodes1 nodes2 : List ℕ) (f : ℕ × ℕ → ℚ) : Prop :=
  (∀ a ∈ arcList n A nodes1 nodes2, 0 ≤ f a ∧ withinCap n f a) ∧
    ∀ v, v < n + 2 → inflow (arcList n A nodes1 nodes2) f v
      = outflow (arcList n A nodes1 nodes2) f v

/-- An integral flow vector (every arc flow is a natural number). -/
def IntegralFlow (f : ℕ × ℕ → ℚ) : Prop := ∀ a, ∃ k : ℕ, f a = (k : ℚ)

/-- Objective value of a flow: the cost vector dotted with the flow vector. -/
def flowCost (arcs : List (ℕ × ℕ)) (costs : List ℚ) (f : ℕ × ℕ → ℚ) : ℚ :=
  ((arcs.zip costs).map (fun p => p.2 * f p.1)).sum

/-- Objective value of a flow on the constructed network. -/
def netCost (n : ℕ) (A : ℕ → ℕ → ℚ) (nodes1 nodes2 : List ℕ) (f : ℕ × ℕ → ℚ) : ℚ :=
  flowCost (arcList n A nodes1 nodes2) (cost (from_arc n A nodes1 nodes2).length) f

/-- An optimal solution of the min-cost-flow problem: feasible, and of minimal
objective value among feasible flows. -/
def OptimalFlow (n : ℕ) (A : ℕ → ℕ → ℚ) (nodes1 nodes2 : List ℕ) (f : ℕ × ℕ → ℚ) : Prop :=
  Feasible n A nodes1 nodes2 f ∧
    ∀ g, Feasible n A nodes1 nodes2 g →
      netCost n A nodes1 nodes2 f ≤ netCost n A nodes1 nodes2 g

/-- `select = (flows > 0.5) & (from_arc != source) & (to_arc != sink)`. -/
def selectMask (n : ℕ) (f : ℕ × ℕ → ℚ) (a : ℕ × ℕ) : Bool :=
  decide ((1 : ℚ) / 2 < f a) && decide (a.1 ≠ sourceIdx n) && decide (a.2 ≠ sinkIdx n)

/-- `from_arc_result = from_arc[select][:-1]; to_arc_result = to_arc[select][:-1]`:
the arcs passing the mask, with the last selected entry dropped. -/
def selectedArcs (n : ℕ) (A : ℕ → ℕ → ℚ) (nodes1 nodes2 : List ℕ)
    (f : ℕ × ℕ → ℚ) : List (ℕ × ℕ) :=
  ((arcList n A nodes1 nodes2).filter (selectMask n f)).dropLast

/-- The returned adjacency matrix `matching + matching.T`, where `matching` is
the coo matrix with a unit entry per selected arc (duplicates would sum). -/
def matchingMatrix (n : ℕ) (A : ℕ → ℕ → ℚ) (nodes1 nodes2 : List ℕ)
    (f : ℕ × ℕ → ℚ) (i j : ℕ) : ℚ :=
  (((selectedArcs n A nodes1 nodes2 f).countP (fun p => decide (p = (i, j)))) : ℚ)
    + (((selectedArcs n A nodes1 nodes2 f).countP (fun p => decide (p = (j, i)))) : ℚ)

/-- Number of selected arcs incident to node `v`. -/
def selDegree (sel : List (ℕ × ℕ)) (v : ℕ) : ℕ :=
  (sel.filter (fun a => decide (a.1 = v) || decide (a.2 = v))).length

/-- Two edges share no endpoint. -/
def EdgeDisjoint (e1 e2 : ℕ × ℕ) : Prop :=
  e1.1 ≠ e2.1 ∧ e1.1 ≠ e2.2 ∧ e1.2 ≠ e2.1 ∧ e1.2 ≠ e2.2

/-- A matching of the input graph, with every undirected edge written in its
canonical upper-triangular orientation (tail < head, an entry of the matrix). -/
def IsMatching (n : ℕ) (A : ℕ → ℕ → ℚ) (M : List (ℕ × ℕ)) : Prop :=
  M.Nodup ∧ (∀ e ∈ M, e.1 < e.2 ∧ e.2 < n ∧ A e.1 e.2 ≠ 0) ∧
    ∀ e1 ∈ M, ∀ e2 ∈ M, e1 ≠ e2 → EdgeDisjoint e1 e2

/-- The hypotheses the spec places on a bipartite matching instance: a
symmetric, loop-free adjacency matrix, disjoint duplicate-free node partitions
within range, and every edge joining the two partitions. -/
structure BipartiteInput (n : ℕ) (A : ℕ → ℕ → ℚ) (nodes1 nodes2 : List ℕ) : Prop where
  symm : ∀ i j, A i j = A j i
  loopfree : ∀ i, A i i = 0
  mem1_lt : ∀ u ∈ nodes1, u < n
  mem2_lt : ∀ v ∈ nodes2, v < n
  disj : ∀ u ∈ nodes1, u ∉ nodes2
  nodup1 : nodes1.Nodup
  nodup2 : nodes2.Nodup
  bipartite : ∀ i j, i < n → j < n → A i j ≠ 0 →
    (i ∈ nodes1 ∧ j ∈ nodes2) ∨ (i ∈ nodes2 ∧ j ∈ nodes1)

/-- Every edge, in its upper-triangular orientation, runs from partition 1 to
partition 2 (the spec's "N1 endpoint listed first" assumption; it holds in
particular whenever all partition-1 indices precede all partition-2 indices). -/
def Oriented (n : ℕ) (A : ℕ → ℕ → ℚ) (nodes1 nodes2 : List ℕ) : Prop :=
  ∀ i j, i < j → j < n → A i j ≠ 0 → i ∈ nodes1 ∧ j ∈ nodes2

/-- The circulation induced by a matching `M`: unit flow on each matched edge,
on the source arc of each matched tail and the sink arc of each matched head,
and `|M|` units on the `sink → source` return arc. -/
def flowOfMatching (n : ℕ) (M : List (ℕ × ℕ)) : ℕ × ℕ → ℚ := fun a =>
  if a ∈ M then 1
  else if a.1 = sourceIdx n ∧ M.any (fun e => decide (e.1 = a.2)) then 1
  else if a.2 = sinkIdx n ∧ M.any (fun e => decide (e.2 = a.1)) then 1
  else if a = (sinkIdx n, sourceIdx n) then (M.length : ℚ)
  else 0

/-- `edges = list(zip(G.row, G.col))` of `maximum_weighted_matching`: one key
per stored coo entry of the input (note: no `sp.triu` reduction is applied). -/
def wEdges (entries : List (ℕ × ℕ × ℚ)) : List (ℕ × ℕ) :=
  entries.map (fun e => (e.1, e.2.1))

/-- The decision-variable keys created by `m.addVars(edges)` (a set of keys). -/
def wVars (entries : List (ℕ × ℕ × ℚ)) : List (ℕ × ℕ) := (wEdges entries).dedup

/-- `weights = dict(zip(edges, G.data))`: the weight attached to a variable key
(later duplicates overwrite earlier ones, hence the reversed lookup). -/
def wWeight (entries : List (ℕ × ℕ × ℚ)) (p : ℕ × ℕ) : ℚ :=
  ((entries.reverse.find? (fun e => decide ((e.1, e.2.1) = p))).map
    (fun e => e.2.2)).getD 0

/-- Left-hand side of the clash constraint of node `v`: the sum, over the
variable keys incident to `v` (the set `clashes[v]`), of the solved values. -/
def nodeLoad (entries : List (ℕ × ℕ × ℚ)) (x : ℕ × ℕ → Bool) (v : ℕ) : ℚ :=
  (((wVars entries).filter (fun p => decide (p.1 = v) || decide (p.2 = v))).map
    (fun p => if x p then (1 : ℚ) else 0)).sum

/-- A binary solution satisfying every clash constraint
`m.addConstr(quicksum(x[edge] for edge in edgepair) <= 1)` (nodes with no
incident edge get no constraint; their load is 0, so quantifying over all
nodes is equivalent). -/
def wFeasible (entries : List (ℕ × ℕ × ℚ)) (x : ℕ × ℕ → Bool) : Prop :=
  ∀ v : ℕ, nodeLoad entries x v ≤ 1

/-- The objective `x.prod(weights)`. -/
def wObj (entries : List (ℕ × ℕ × ℚ)) (x : ℕ × ℕ → Bool) : ℚ :=
  ((wVars entries).map (fun p => if x p then wWeight entries p else 0)).sum

/-- An optimal solution of the binary program (`GRB.MAXIMIZE`). -/
def wOptimal (entries : List (ℕ × ℕ × ℚ)) (x : ℕ × ℕ → Bool) : Prop :=
  wFeasible entries x ∧ ∀ y, wFeasible entries y → wObj entries y ≤ wObj entries x

/-- The variable keys with solved value exceeding 0.5 (`v.X > 0.5`). -/
def wSelected (entries : List (ℕ × ℕ × ℚ)) (x : ℕ × ℕ → Bool) : List (ℕ × ℕ) :=
  (wVars entries).filter (fun p => x p)

/-- `row, col, data = zip(*[(i, j, v.Obj) for (i, j), v in x.items() if v.X > 0.5])`:
unpacking `zip(*[])` of an empty selection raises a `ValueError`, embedded as
the error case; otherwise the returned coo triples (`v.Obj` is the objective
coefficient, i.e. the weight). -/
def wResult (entries : List (ℕ × ℕ × ℚ)) (x : ℕ × ℕ → Bool) :
    Except String (List (ℕ × ℕ × ℚ)) :=
  match wSelected entries x with
  | [] => Except.error "not enough values to unpack"
  | l => Except.ok (l.map (fun p => (p.1, p.2, wWeight entries p)))

/-- Canonical unordered form of an edge. -/
def undirKey (p : ℕ × ℕ) : ℕ × ℕ := (min p.1 p.2, max p.1 p.2)

/-- The sorted distinct values of a list of labels (what
`astype("category")` uses as the category order, and what `np.unique` returns). -/
def sortedUnique (l : List ℕ) : List ℕ :=
  (List.range (l.foldr max 0 + 1)).filter (fun v => decide (v ∈ l))

/-- `cat.codes`: position of a label in the sorted distinct labels. -/
def catCode (l : List ℕ) (x : ℕ) : ℕ := (sortedUnique l).indexOf x

/-- `_maximum_bipartite_matching_scipy`, with the engine solve replaced by the
supplied flow vector and `with create_env() as env` counted by `envCount`. -/
def maximum_bipartite_matching_scipy (n : ℕ) (A : ℕ → ℕ → ℚ) (nodes1 nodes2 : List ℕ)
    (flows : ℕ × ℕ → ℚ) (envCount : ℕ) : (ℕ → ℕ → ℚ) × ℕ :=
  (matchingMatrix n A nodes1 nodes2 flows, envCount + 1)

/-- `row = frame[n1_column].astype("category").cat.codes.to_numpy()`. -/
def pdRow {R : Type} (frame : List (ℕ × ℕ × R)) : List ℕ :=
  frame.map (fun r => catCode (frame.map (fun s => s.1)) r.1)

/-- `col = frame[n2_column].astype("category").cat.codes.to_numpy() + row.max() + 1`. -/
def pdCol {R : Type} (frame : List (ℕ × ℕ × R)) : List ℕ :=
  frame.map (fun r =>
    catCode (frame.map (fun s => s.2.1)) r.2.1 + (pdRow frame).foldr max 0 + 1)

/-- `degree = col.max() + 1`. -/
def pdDegree {R : Type} (frame : List (ℕ × ℕ × R)) : ℕ :=
  (pdCol frame).foldr max 0 + 1

/-- `adjacency = sp.coo_array((np.ones(row.shape), (row, col)), ...)`:
coo semantics sum duplicate entries, hence the count. -/
def pdAdj {R : Type} (frame : List (ℕ × ℕ × R)) : ℕ → ℕ → ℚ := fun i j =>
  ((((pdRow frame).zip (pdCol frame)).filter
    (fun p => decide (p = (i, j)))).length : ℚ)

/-- `_maximum_bipartite_matching_pandas`: categorical codes for the two key
columns (the second offset past the first), a coo adjacency from the code
pairs, the scipy solve (`nodes1 = np.unique(row)`, `nodes2 = np.unique(col)`),
`sp.triu` of the result, and the merge back onto the original frame, returning
`result[frame.columns]` (each surviving row keeps exactly its original
columns; the appended code/join columns are projected away). -/
def maximum_bipartite_matching_pandas {R : Type} (frame : List (ℕ × ℕ × R))
    (flows : ℕ × ℕ → ℚ) (envCount : ℕ) : List (ℕ × ℕ × R) × ℕ :=
  let solved := maximum_bipartite_matching_scipy (pdDegree frame) (pdAdj frame)
    (sortedUnique (pdRow frame)) (sortedUnique (pdCol frame)) flows envCount
  let adj := (List.range (pdDegree frame)).flatMap (fun i =>
    ((List.range (pdDegree frame)).filter
      (fun j => decide (i ≤ j) && decide (solved.1 i j ≠ 0))).map (fun j => (i, j)))
  let merged := (frame.zip ((pdRow frame).zip (pdCol frame))).flatMap (fun rc =>
    (adj.filter (fun s => decide (s = rc.2))).map (fun _ => rc.1))
  (merged, solved.2)

/-- The three recognized input graph representations, plus anything else. -/
inductive GraphInput (R : Type) where
  | scipy (n : ℕ) (A : ℕ → ℕ → ℚ) (nodes1 nodes2 : List ℕ)
  | pandas (frame : List (ℕ × ℕ × R))
  | networkx (n : ℕ) (A : ℕ → ℕ → ℚ) (nodes1 nodes2 : List ℕ)
  | unsupported (typeName : String)

/-- The output representation matching each input representation. -/
inductive MatchOutput (R : Type) where
  | scipyOut (M : ℕ → ℕ → ℚ)
  | pandasOut (frame : List (ℕ × ℕ × R))
  | networkxOut (M : ℕ → ℕ → ℚ)

/-- `maximum_bipartite_matching`: dispatch on the input representation; an
unrecognized type raises `ValueError(f"Unknown graph type: ...")`.  The final
count records how often `create_env` was entered. -/
def maximum_bipartite_matching {R : Type} (g : GraphInput R) (flows : ℕ × ℕ → ℚ)
    (envCount : ℕ) : Except String (MatchOutput R) × ℕ :=
  match g with
  | .scipy n A nodes1 nodes2 =>
    let solved := maximum_bipartite_matching_scipy n A nodes1 nodes2 flows envCount
    (Except.ok (.scipyOut solved.1), solved.2)
  | .pandas frame =>
    let solved := maximum_bipartite_matching_pandas frame flows envCount
    (Except.ok (.pandasOut solved.1), solved.2)
  | .networkx n A nodes1 nodes2 =>
    let solved := maximum_bipartite_matching_scipy n A nodes1 nodes2 flows envCount
    (Except.ok (.networkxOut solved.1), solved.2)
  | .unsupported typeName =>
    (Except.error ("Unknown graph type: " ++ typeName), envCount)

/-- Adjacency of the 2-node graph with the single edge between 0 and 1. -/
def cx2A : ℕ → ℕ → ℚ := fun i j =>
  if (i = 0 ∧ j = 1) ∨ (i = 1 ∧ j = 0) then 1 else 0

/-- Adjacency of the 4-node path graph 0 - 1 - 2 - 3 (unit weights). -/
def cx4A : ℕ → ℕ → ℚ := fun i j =>
  if (i, j) ∈ [((0:ℕ),(1:ℕ)), (1,0), (1,2), (2,1), (2,3), (3,2)] then 1 else 0

/-- A feasible flow on the network built from the path graph with
partitions `nodes1 = [0, 2]`, `nodes2 = [1, 3]`. -/
def cx4flow : ℕ × ℕ → ℚ := fun a =>
  if a ∈ [((4:ℕ),(0:ℕ)), (0,1), (1,2), (2,3), (3,5), (5,4)] then 1 else 0

/-- Adjacency of the bipartite graph with `N1 = [0,1]`, `N2 = [2,3]` and
edges (0,2), (0,3), (1,2) (the spec's concrete bipartite scenario). -/
def wbA : ℕ → ℕ → ℚ := fun i j =>
  if (i, j) ∈ [((0:ℕ),(2:ℕ)), (2,0), (0,3), (3,0), (1,2), (2,1)] then 1 else 0

/-- The integral optimal flow on that network matching (0,3) and (1,2). -/
def wbFlow : ℕ × ℕ → ℚ := fun a =>
  if a = (5, 4) then 2
  else if a ∈ [((4:ℕ),(0:ℕ)), (4,1), (0,3), (1,2), (2,5), (3,5)] then 1 else 0

/-- Coo entries of the symmetric adjacency of the weighted path graph
`{(0,1): 1, (1,2): 5, (2,3): 1}` in row-major order. -/
def pathEntries : List (ℕ × ℕ × ℚ) :=
  [(0, 1, 1), (1, 0, 1), (1, 2, 5), (2, 1, 5), (2, 3, 1), (3, 2, 1)]

/-- Coo entries of the symmetric 2-node adjacency with one edge of weight 1. -/
def symEdgeEntries : List (ℕ × ℕ × ℚ) := [(0, 1, 1), (1, 0, 1)]

/-- The binary solution selecting exactly the variable keyed (1,2). -/
def pathOpt : ℕ × ℕ → Bool := fun p => decide (p = (1, 2))

/-- Flow witnessing the matched edge for the one-row pandas table. -/
def pdFlow : ℕ × ℕ → ℚ := fun a =>
  if a ∈ [((2:ℕ),(0:ℕ)), (0,1), (1,3), (3,2)] then 1 else 0

/-- A one-row labeled edge table (labels 10 and 20, empty payload). -/
def pdFrame : List (ℕ × ℕ × Unit) := [(10, 20, ())]

/-! ### List helper lemmas -/

/-- A member bounds the sum of a nonnegative function over a list. -/
lemma mem_le_sum {α : Type} (l : List α) (g : α → ℚ) (a : α)
    (ha : a ∈ l) (hpos : ∀ x ∈ l, 0 ≤ g x) : g a ≤ (l.map g).sum :=
  List.single_le_sum
    (by intro x hx; rcases List.mem_map.mp hx with ⟨y, hy, rfl⟩; exact hpos y hy) _
    (List.mem_map_of_mem g ha)

/-- The sum of a nonnegative function over a list is nonnegative. -/
lemma sum_map_nonneg {α : Type} (l : List α) (g : α → ℚ) (h : ∀ x ∈ l, 0 ≤ g x) :
    0 ≤ (l.map g).sum :=
  List.sum_nonneg
    (by intro x hx; rcases List.mem_map.mp hx with ⟨y, hy, rfl⟩; exact h y hy)

/-- Two distinct members bound the sum of a nonnegative function over a list. -/
lemma two_mem_le_sum {α : Type} [DecidableEq α] (l : List α) (g : α → ℚ) (a b : α)
    (ha : a ∈ l) (hb : b ∈ l) (hab : a ≠ b) (hpos : ∀ x ∈ l, 0 ≤ g x) :
    g a + g b ≤ (l.map g).sum := by
  have hperm : List.Perm l (a :: l.erase a) := List.perm_cons_erase ha
  have hsum : (l.map g).sum = ((a :: l.erase a).map g).sum := (hperm.map g).sum_eq
  have hbe : b ∈ l.erase a := (List.mem_erase_of_ne (Ne.symm hab)).mpr hb
  have h2 : g b ≤ ((l.erase a).map g).sum :=
    mem_le_sum _ g b hbe (fun x hx => hpos x (List.mem_of_mem_erase hx))
  rw [hsum, List.map_cons, List.sum_cons]
  linarith

/-- Summing `if k = u then c + h u else h u` over duplicate-free keys adds `c`
exactly once when `k` occurs among the keys. -/
lemma sum_shift (keys : List ℕ) (k : ℕ) (c : ℚ) (h : ℕ → ℚ) (hk : keys.Nodup) :
    (keys.map (fun u => if k = u then c + h u else h u)).sum
      = (if k ∈ keys then c else 0) + (keys.map h).sum := by
  induction keys with
  | nil => simp
  | cons u t ih =>
    rcases List.nodup_cons.mp hk with ⟨hu, ht⟩
    by_cases hke : k = u
    · subst hke
      have hmap : t.map (fun x => if k = x then c + h x else h x) = t.map h :=
        List.map_eq_map_iff.mpr
          (by intro x hx; rw [if_neg]; exact fun e => hu (by rw [e]; exact hx))
      simp [hmap]
      ring
    · have := ih ht
      simp only [List.map_cons, List.sum_cons, if_neg hke, this, List.mem_cons]
      have : (k ∈ t ∨ k = u) ↔ k ∈ t := by
        constructor
        · rintro (h | h)
          · exact h
          · exact absurd h hke
        · exact Or.inl
      by_cases hkt : k ∈ t <;> simp [hkt, hke] <;> ring

/-- Summing bucketed sums over duplicate-free keys collects every list element
whose key occurs among the keys, exactly once. -/
lemma sum_bucket (keys : List ℕ) (l : List (ℕ × ℕ)) (key : ℕ × ℕ → ℕ) (g : ℕ × ℕ → ℚ)
    (hk : keys.Nodup) :
    (keys.map (fun u => ((l.filter (fun a => decide (key a = u))).map g).sum)).sum
      = ((l.filter (fun a => decide (key a ∈ keys))).map g).sum := by
  induction l with
  | nil => simp
  | cons b t ih =>
    have hstep : ∀ u ∈ keys,
        (((b :: t).filter (fun a => decide (key a = u))).map g).sum
          = (if key b = u
              then g b + ((t.filter (fun a => decide (key a = u))).map g).sum
              else ((t.filter (fun a => decide (key a = u))).map g).sum) := by
      intro u _
      by_cases hbu : key b = u
      · simp [List.filter_cons, hbu]
      · simp [List.filter_cons, hbu]
    calc (keys.map (fun u => (((b :: t).filter (fun a => decide (key a = u))).map g).sum)).sum
        = (keys.map (fun u => if key b = u
            then g b + ((t.filter (fun a => decide (key a = u))).map g).sum
            else ((t.filter (fun a => decide (key a = u))).map g).sum)).sum := by
          exact congrArg _ (List.map_eq_map_iff.mpr hstep)
      _ = (if key b ∈ keys then g b else 0)
            + (keys.map (fun u => ((t.filter (fun a => decide (key a = u))).map g).sum)).sum :=
          sum_shift keys (key b) (g b) _ hk
      _ = (if key b ∈ keys then g b else 0)
            + ((t.filter (fun a => decide (key a ∈ keys))).map g).sum := by rw [ih]
      _ = (((b :: t).filter (fun a => decide (key a ∈ keys))).map g).sum := by
          by_cases hmem : key b ∈ keys
          · simp [List.filter_cons, hmem]
          · simp [List.filter_cons, hmem]

/-- Splitting a filtered sum along a second predicate. -/
lemma sum_filter_split (l : List (ℕ × ℕ)) (p q : ℕ × ℕ → Bool) (g : ℕ × ℕ → ℚ) :
    ((l.filter p).map g).sum
      = ((l.filter (fun a => p a && q a)).map g).sum
        + ((l.filter (fun a => p a && !q a)).map g).sum := by
  induction l with
  | nil => simp
  | cons b t ih =>
    by_cases hp : p b <;> by_cases hq : q b <;>
      simp [List.filter_cons, hp, hq, ih] <;> ring

/-- An indicator sum counts the members passing the predicate. -/
lemma sum_ite_len {α : Type} (l : List α) (p : α → Bool) :
    (l.map (fun a => if p a then (1 : ℚ) else 0)).sum = ((l.filter p).length : ℚ) := by
  induction l with
  | nil => simp
  | cons b t ih =>
    by_cases hp : p b <;> simp [List.filter_cons, hp, ih] <;> push_cast <;> ring

/-- Two duplicate-free lists with the same membership have equal length. -/
lemma length_eq_of_nodup_mem_iff {α : Type} [DecidableEq α] (l1 l2 : List α)
    (h1 : l1.Nodup) (h2 : l2.Nodup) (h : ∀ a, a ∈ l1 ↔ a ∈ l2) :
    l1.length = l2.length := by
  have e : l1.toFinset = l2.toFinset := by
    ext a
    simp only [List.mem_toFinset]
    exact h a
  calc l1.length = l1.toFinset.card := (List.toFinset_card_of_nodup h1).symm
    _ = l2.toFinset.card := by rw [e]
    _ = l2.length := List.toFinset_card_of_nodup h2

/-- A duplicate-free list whose members are all equal has at most one member. -/
lemma length_le_one_of_nodup_all_eq {α : Type} (l : List α) (hn : l.Nodup)
    (h : ∀ a ∈ l, ∀ b ∈ l, a = b) : l.length ≤ 1 := by
  match l with
  | [] => simp
  | [a] => simp
  | a :: b :: t =>
    exfalso
    rcases List.nodup_cons.mp hn with ⟨hab, _⟩
    exact hab (by rw [h a (by simp) b (by simp)]; simp)

/-- Filtering a duplicate-free list for one value yields that value or nothing. -/
lemma filter_eq_of_nodup {α : Type} [DecidableEq α] (l : List α) (u : α) (hn : l.Nodup) :
    l.filter (fun x => decide (x = u)) = if u ∈ l then [u] else [] := by
  induction l with
  | nil => simp
  | cons b t ih =>
    rcases List.nodup_cons.mp hn with ⟨hb, ht⟩
    by_cases hbu : b = u
    · subst hbu
      have hnil : t.filter (fun x => decide (x = b)) = [] :=
        List.filter_eq_nil_iff.mpr (by intro x hx; simp; exact fun e => hb (e ▸ hx))
      simp [List.filter_cons, hnil]
    · have hne : ¬ (u = b) := fun e => hbu e.symm
      by_cases hut : u ∈ t <;> simp [List.filter_cons, hbu, ih ht, List.mem_cons, hne, hut]

/-- Setting the final component of a replicated list. -/
lemma replicate_set_last {α : Type} (k : ℕ) (x y : α) :
    (List.replicate (k + 1) x).set k y = List.replicate k x ++ [y] := by
  induction k with
  | zero => rfl
  | succ j ih =>
    rw [List.replicate_succ, List.set_cons_succ, ih, ← List.cons_append,
      ← List.replicate_succ]

/-! ### Structure of the constructed network -/

/-- Membership in the upper-triangular entry list. -/
lemma mem_triu_entries (n : ℕ) (A : ℕ → ℕ → ℚ) (e : ℕ × ℕ) :
    e ∈ triu_entries n A ↔ e.1 < n ∧ e.2 < n ∧ e.1 ≤ e.2 ∧ A e.1 e.2 ≠ 0 := by
  rcases e with ⟨i, j⟩
  simp only [triu_entries, List.mem_flatMap, List.mem_map, List.mem_filter,
    List.mem_range, Bool.and_eq_true, decide_eq_true_eq, Prod.mk.injEq]
  constructor
  · rintro ⟨a, ha, b, ⟨hb, hle, hne⟩, rfl, rfl⟩
    exact ⟨ha, hb, hle, hne⟩
  · rintro ⟨h1, h2, h3, h4⟩
    exact ⟨i, h1, j, ⟨h2, h3, h4⟩, rfl, rfl⟩

/-- With a loop-free adjacency, each triangular entry is strictly increasing. -/
lemma triu_lt (n : ℕ) (A : ℕ → ℕ → ℚ) (hloop : ∀ i, A i i = 0) (e : ℕ × ℕ)
    (he : e ∈ triu_entries n A) : e.1 < e.2 := by
  rcases (mem_triu_entries n A e).mp he with ⟨-, -, hle, hne⟩
  rcases lt_or_eq_of_le hle with h | h
  · exact h
  · exact absurd (h ▸ hloop e.1) hne

/-- Concatenating duplicate-free groups whose members are tagged by their key
gives a duplicate-free list. -/
lemma nodup_flatMap_groups (keys : List ℕ) (F : ℕ → List (ℕ × ℕ)) (hk : keys.Nodup)
    (hgrp : ∀ i ∈ keys, (F i).Nodup) (htag : ∀ i ∈ keys, ∀ e ∈ F i, e.1 = i) :
    (keys.flatMap F).Nodup := by
  induction keys with
  | nil => simp
  | cons u t ih =>
    rcases List.nodup_cons.mp hk with ⟨hu, ht⟩
    rw [List.flatMap_cons]
    refine List.Nodup.append (hgrp u (by simp)) (ih ht ?_ ?_) ?_
    · intro i hi
      exact hgrp i (by simp [hi])
    · intro i hi
      exact htag i (by simp [hi])
    · intro e he1 he2
      rcases List.mem_flatMap.mp he2 with ⟨i, hi, hei⟩
      have h1 := htag u (by simp) e he1
      have h2 := htag i (by simp [hi]) e hei
      exact hu (by rw [show u = i by rw [← h1, h2]]; exact hi)

/-- The triangular entry list has no duplicates. -/
lemma triu_entries_nodup (n : ℕ) (A : ℕ → ℕ → ℚ) : (triu_entries n A).Nodup := by
  apply nodup_flatMap_groups _ _ (List.nodup_range n)
  · intro i _
    refine List.Nodup.map ?_ (List.Nodup.filter _ (List.nodup_range n))
    intro a b hab
    exact congrArg Prod.snd hab
  · intro i _ e he
    rcases List.mem_map.mp he with ⟨b, _, rfl⟩
    rfl

/-- The capacity array is all ones except the final infinite entry. -/
lemma capacity_eq (k : ℕ) : capacity (k + 1) = List.replicate k (some 1) ++ [none] := by
  unfold capacity
  rw [Nat.add_sub_cancel, replicate_set_last]

/-- The cost array is all zeros except the final `-1`. -/
lemma cost_eq (k : ℕ) : cost (k + 1) = List.replicate k (0 : ℚ) ++ [-1] := by
  unfold cost
  rw [Nat.add_sub_cancel, replicate_set_last]

/-- The arc arrays have length `|N1| + |E| + |N2| + 1`. -/
lemma from_arc_length (n : ℕ) (A : ℕ → ℕ → ℚ) (nodes1 nodes2 : List ℕ) :
    (from_arc n A nodes1 nodes2).length
      = nodes1.length + (triu_entries n A).length + nodes2.length + 1 := by
  simp [from_arc]
  omega

lemma to_arc_length (n : ℕ) (A : ℕ → ℕ → ℚ) (nodes1 nodes2 : List ℕ) :
    (to_arc n A nodes1 nodes2).length
      = nodes1.length + (triu_entries n A).length + nodes2.length + 1 := by
  simp [to_arc]
  omega

lemma arcList_length (n : ℕ) (A : ℕ → ℕ → ℚ) (nodes1 nodes2 : List ℕ) :
    (arcList n A nodes1 nodes2).length
      = nodes1.length + (triu_entries n A).length + nodes2.length + 1 := by
  simp [arcList]
  omega

/-- Zipping a constant-mapped copy against the list itself. -/
lemma zip_const_fst (s : ℕ) (l : List ℕ) :
    (l.map (fun _ => s)).zip l = l.map (fun u => (s, u)) := by
  induction l with
  | nil => rfl
  | cons b t ih => rw [List.map_cons, List.map_cons, List.zip_cons_cons, ih]

/-- Zipping the list against a constant-mapped copy of itself. -/
lemma zip_const_snd (s : ℕ) (l : List ℕ) :
    l.zip (l.map (fun _ => s)) = l.map (fun v => (v, s)) := by
  induction l with
  | nil => rfl
  | cons b t ih => rw [List.map_cons, List.map_cons, List.zip_cons_cons, ih]

/-- Zipping the two projections of a pair list restores the list. -/
lemma zip_fst_snd (l : List (ℕ × ℕ)) : (l.map Prod.fst).zip (l.map Prod.snd) = l := by
  induction l with
  | nil => rfl
  | cons b t ih => simp [ih]

/-- The arc pair list is the zip of the tail and head arrays. -/
lemma arcList_eq_zip (n : ℕ) (A : ℕ → ℕ → ℚ) (nodes1 nodes2 : List ℕ) :
    arcList n A nodes1 nodes2
      = (from_arc n A nodes1 nodes2).zip (to_arc n A nodes1 nodes2) := by
  unfold arcList from_arc to_arc
  rw [List.zip_append (by simp), List.zip_append (by simp), List.zip_append (by simp),
    zip_const_fst, zip_const_snd, zip_fst_snd]
  rfl

/-- Membership in the arc list, by the four construction groups. -/
lemma mem_arcList (n : ℕ) (A : ℕ → ℕ → ℚ) (nodes1 nodes2 : List ℕ) (a : ℕ × ℕ) :
    a ∈ arcList n A nodes1 nodes2 ↔
      (a.1 = sourceIdx n ∧ a.2 ∈ nodes1) ∨ a ∈ triu_entries n A
        ∨ (a.1 ∈ nodes2 ∧ a.2 = sinkIdx n) ∨ a = (sinkIdx n, sourceIdx n) := by
  rcases a with ⟨x, y⟩
  simp only [arcList, List.mem_append, List.mem_map, List.mem_singleton, Prod.mk.injEq]
  constructor
  · rintro (((⟨u, hu, he⟩ | h) | ⟨v, hv, he⟩) | h)
    · exact Or.inl ⟨he.1.symm, by rw [← he.2]; exact hu⟩
    · exact Or.inr (Or.inl h)
    · exact Or.inr (Or.inr (Or.inl ⟨by rw [← he.1]; exact hv, he.2.symm⟩))
    · exact Or.inr (Or.inr (Or.inr h))
  · rintro (⟨h1, h2⟩ | h | ⟨h1, h2⟩ | h)
    · exact Or.inl (Or.inl (Or.inl ⟨y, h2, h1.symm, rfl⟩))
    · exact Or.inl (Or.inl (Or.inr h))
    · exact Or.inl (Or.inr ⟨x, h1, rfl, h2.symm⟩)
    · exact Or.inr h

/-- The arc list with the final return arc split off. -/
lemma arcList_concat (n : ℕ) (A : ℕ → ℕ → ℚ) (nodes1 nodes2 : List ℕ) :
    arcList n A nodes1 nodes2
      = (nodes1.map (fun u => (sourceIdx n, u)) ++ triu_entries n A
          ++ nodes2.map (fun v => (v, sinkIdx n))) ++ [(sinkIdx n, sourceIdx n)] := by
  simp [arcList]

/-- The arcs are pairwise distinct. -/
lemma arcList_nodup (n : ℕ) (A : ℕ → ℕ → ℚ) (nodes1 nodes2 : List ℕ)
    (H : BipartiteInput n A nodes1 nodes2) : (arcList n A nodes1 nodes2).Nodup := by
  have hg1 : (nodes1.map (fun u => (sourceIdx n, u))).Nodup :=
    H.nodup1.map (fun a b hab => congrArg Prod.snd hab)
  have hg3 : (nodes2.map (fun v => (v, sinkIdx n))).Nodup :=
    H.nodup2.map (fun a b hab => congrArg Prod.fst hab)
  have hmem1 : ∀ a ∈ nodes1.map (fun u => (sourceIdx n, u)), a.1 = sourceIdx n := by
    intro a ha
    rcases List.mem_map.mp ha with ⟨u, _, rfl⟩
    rfl
  have hmem3 : ∀ a ∈ nodes2.map (fun v => (v, sinkIdx n)),
      a.2 = sinkIdx n ∧ a.1 < n := by
    intro a ha
    rcases List.mem_map.mp ha with ⟨v, hv, rfl⟩
    exact ⟨rfl, H.mem2_lt v hv⟩
  have htr : ∀ a ∈ triu_entries n A, a.1 < n ∧ a.2 < n := by
    intro a ha
    rcases (mem_triu_entries n A a).mp ha with ⟨h1, h2, -, -⟩
    exact ⟨h1, h2⟩
  have n12 : (nodes1.map (fun u => (sourceIdx n, u)) ++ triu_entries n A).Nodup := by
    refine List.Nodup.append hg1 (triu_entries_nodup n A) ?_
    intro a ha hb
    have := hmem1 a ha
    have := (htr a hb).1
    simp [sourceIdx] at *
    omega
  have n123 : (nodes1.map (fun u => (sourceIdx n, u)) ++ triu_entries n A
      ++ nodes2.map (fun v => (v, sinkIdx n))).Nodup := by
    refine List.Nodup.append n12 hg3 ?_
    intro a ha hb
    rcases List.mem_append.mp ha with h | h
    · have h1 := hmem1 a h
      have h2 := (hmem3 a hb).2
      rw [h1] at h2
      simp [sourceIdx] at h2
    · have h1 := (htr a h).2
      have h2 := (hmem3 a hb).1
      rw [h2] at h1
      simp [sinkIdx] at h1
  rw [arcList_concat]
  refine List.Nodup.append n123 (List.nodup_singleton _) ?_
  intro a ha hb
  rw [List.mem_singleton] at hb
  subst hb
  rcases List.mem_append.mp ha with h | h
  · rcases List.mem_append.mp h with h | h
    · have h1 := hmem1 _ h
      simp [sourceIdx, sinkIdx] at h1
    · have h1 := (htr _ h).1
      simp [sinkIdx] at h1
  · have h1 := (hmem3 _ h).2
    have h2 := (hmem3 _ h).1
    simp [sinkIdx, sourceIdx] at h1 h2

/-- The objective of any flow is minus its flow on the `sink → source` arc
(the only nonzero cost is the final `-1`). -/
lemma netCost_eq (n : ℕ) (A : ℕ → ℕ → ℚ) (nodes1 nodes2 : List ℕ) (f : ℕ × ℕ → ℚ) :
    netCost n A nodes1 nodes2 f = -(f (sinkIdx n, sourceIdx n)) := by
  have hfront : (nodes1.map (fun u => (sourceIdx n, u)) ++ triu_entries n A
      ++ nodes2.map (fun v => (v, sinkIdx n))).length
        = nodes1.length + (triu_entries n A).length + nodes2.length := by
    simp
    omega
  unfold netCost flowCost
  rw [from_arc_length, arcList_concat,
    show nodes1.length + (triu_entries n A).length + nodes2.length + 1
      = (nodes1.map (fun u => (sourceIdx n, u)) ++ triu_entries n A
          ++ nodes2.map (fun v => (v, sinkIdx n))).length + 1 by rw [hfront],
    cost_eq, List.zip_append (by simp), List.map_append, List.sum_append]
  have hz : (((nodes1.map (fun u => (sourceIdx n, u)) ++ triu_entries n A
      ++ nodes2.map (fun v => (v, sinkIdx n))).zip
        (List.replicate (nodes1.map (fun u => (sourceIdx n, u)) ++ triu_entries n A
          ++ nodes2.map (fun v => (v, sinkIdx n))).length (0 : ℚ))).map
            (fun p => p.2 * f p.1)).sum = 0 := by
    apply List.sum_eq_zero
    intro x hx
    rcases List.mem_map.mp hx with ⟨p, hp, rfl⟩
    have hmem := List.of_mem_zip hp
    have h0 : p.2 = 0 := List.eq_of_mem_replicate hmem.2
    rw [h0, zero_mul]
  rw [hz]
  simp

/-- No arc before the final one is the return arc. -/
lemma return_arc_not_mem_front (n : ℕ) (A : ℕ → ℕ → ℚ) (nodes1 nodes2 : List ℕ) :
    (sinkIdx n, sourceIdx n) ∉ nodes1.map (fun u => (sourceIdx n, u))
      ++ triu_entries n A ++ nodes2.map (fun v => (v, sinkIdx n)) := by
  intro h
  rcases List.mem_append.mp h with h | h
  · rcases List.mem_append.mp h with h | h
    · rcases List.mem_map.mp h with ⟨u, _, he⟩
      have := congrArg Prod.fst he
      simp [sourceIdx, sinkIdx] at this
    · have := ((mem_triu_entries n A _).mp h).1
      simp [sinkIdx] at this
  · rcases List.mem_map.mp h with ⟨v, _, he⟩
    have := congrArg Prod.snd he
    simp [sourceIdx, sinkIdx] at this

/-- The mask never selects a `source → u` or `v → sink` arc, so the filtered
arc list is the filtered edge-arc list plus possibly the return arc. -/
lemma filter_mask_arcList (n : ℕ) (A : ℕ → ℕ → ℚ) (nodes1 nodes2 : List ℕ)
    (f : ℕ × ℕ → ℚ) :
    (arcList n A nodes1 nodes2).filter (selectMask n f)
      = (triu_entries n A).filter (selectMask n f)
        ++ (if (1 : ℚ) / 2 < f (sinkIdx n, sourceIdx n)
            then [(sinkIdx n, sourceIdx n)] else []) := by
  have h1 : (nodes1.map (fun u => (sourceIdx n, u))).filter (selectMask n f) = [] := by
    apply List.filter_eq_nil_iff.mpr
    intro a ha
    rcases List.mem_map.mp ha with ⟨u, _, rfl⟩
    simp [selectMask]
  have h3 : (nodes2.map (fun v => (v, sinkIdx n))).filter (selectMask n f) = [] := by
    apply List.filter_eq_nil_iff.mpr
    intro a ha
    rcases List.mem_map.mp ha with ⟨v, _, rfl⟩
    simp [selectMask]
  rw [arcList_concat, List.filter_append, List.filter_append, List.filter_append,
    h1, h3]
  simp only [List.nil_append, List.append_nil]
  congr 1
  by_cases h : (1 : ℚ) / 2 < f (sinkIdx n, sourceIdx n)
  · simp [List.filter_cons, selectMask, sourceIdx, sinkIdx, h]
  · simp [List.filter_cons, selectMask, sourceIdx, sinkIdx, h]

/-! ### Inflow and outflow at each kind of node -/

/-- Inflow at a real node: the source arc (if the node is in partition 1) plus
the edge arcs ending there. -/
lemma inflow_node (n : ℕ) (A : ℕ → ℕ → ℚ) (nodes1 nodes2 : List ℕ) (f : ℕ × ℕ → ℚ)
    (H : BipartiteInput n A nodes1 nodes2) (u : ℕ) (hu : u < n) :
    inflow (arcList n A nodes1 nodes2) f u
      = (if u ∈ nodes1 then f (sourceIdx n, u) else 0)
        + (((triu_entries n A).filter (fun e => decide (e.2 = u))).map f).sum := by
  unfold inflow
  rw [arcList_concat, List.filter_append, List.filter_append, List.filter_append]
  have h1 : (nodes1.map (fun w => (sourceIdx n, w))).filter (fun a => decide (a.2 = u))
      = (nodes1.filter (fun w => decide (w = u))).map (fun w => (sourceIdx n, w)) :=
    List.filter_map _ _
  have h3 : (nodes2.map (fun v => (v, sinkIdx n))).filter (fun a => decide (a.2 = u))
      = [] := by
    apply List.filter_eq_nil_iff.mpr
    intro a ha
    rcases List.mem_map.mp ha with ⟨v, _, rfl⟩
    simp [sinkIdx]
    omega
  have hr : ([((sinkIdx n, sourceIdx n) : ℕ × ℕ)]).filter (fun a => decide (a.2 = u))
      = [] := by
    simp [sourceIdx]
    omega
  rw [h1, h3, hr, filter_eq_of_nodup nodes1 u H.nodup1]
  by_cases hmem : u ∈ nodes1
  · simp [hmem]
  · simp [hmem]

/-- Outflow at a real node: the edge arcs starting there plus the sink arc
(if the node is in partition 2). -/
lemma outflow_node (n : ℕ) (A : ℕ → ℕ → ℚ) (nodes1 nodes2 : List ℕ) (f : ℕ × ℕ → ℚ)
    (H : BipartiteInput n A nodes1 nodes2) (u : ℕ) (hu : u < n) :
    outflow (arcList n A nodes1 nodes2) f u
      = (((triu_entries n A).filter (fun e => decide (e.1 = u))).map f).sum
        + (if u ∈ nodes2 then f (u, sinkIdx n) else 0) := by
  unfold outflow
  rw [arcList_concat, List.filter_append, List.filter_append, List.filter_append]
  have h1 : (nodes1.map (fun w => (sourceIdx n, w))).filter (fun a => decide (a.1 = u))
      = [] := by
    apply List.filter_eq_nil_iff.mpr
    intro a ha
    rcases List.mem_map.mp ha with ⟨w, _, rfl⟩
    simp [sourceIdx]
    omega
  have h3 : (nodes2.map (fun v => (v, sinkIdx n))).filter (fun a => decide (a.1 = u))
      = (nodes2.filter (fun v => decide (v = u))).map (fun v => (v, sinkIdx n)) :=
    List.filter_map _ _
  have hr : ([((sinkIdx n, sourceIdx n) : ℕ × ℕ)]).filter (fun a => decide (a.1 = u))
      = [] := by
    simp [sinkIdx]
    omega
  rw [h1, h3, hr, filter_eq_of_nodup nodes2 u H.nodup2]
  by_cases hmem : u ∈ nodes2
  · simp [hmem]
  · simp [hmem]

/-- Inflow at the source is the return-arc flow. -/
lemma inflow_source (n : ℕ) (A : ℕ → ℕ → ℚ) (nodes1 nodes2 : List ℕ) (f : ℕ × ℕ → ℚ)
    (H : BipartiteInput n A nodes1 nodes2) :
    inflow (arcList n A nodes1 nodes2) f (sourceIdx n)
      = f (sinkIdx n, sourceIdx n) := by
  unfold inflow
  rw [arcList_concat, List.filter_append, List.filter_append, List.filter_append]
  have h1 : (nodes1.map (fun w => (sourceIdx n, w))).filter
      (fun a => decide (a.2 = sourceIdx n)) = [] := by
    apply List.filter_eq_nil_iff.mpr
    intro a ha
    rcases List.mem_map.mp ha with ⟨w, hw, rfl⟩
    have := H.mem1_lt w hw
    simp [sourceIdx]
    omega
  have h2 : (triu_entries n A).filter (fun a => decide (a.2 = sourceIdx n)) = [] := by
    apply List.filter_eq_nil_iff.mpr
    intro a ha
    have := ((mem_triu_entries n A a).mp ha).2.1
    simp [sourceIdx]
    omega
  have h3 : (nodes2.map (fun v => (v, sinkIdx n))).filter
      (fun a => decide (a.2 = sourceIdx n)) = [] := by
    apply List.filter_eq_nil_iff.mpr
    intro a ha
    rcases List.mem_map.mp ha with ⟨v, _, rfl⟩
    simp [sourceIdx, sinkIdx]
  rw [h1, h2, h3]
  simp

/-- Outflow at the source is the total flow on the `source → N1` arcs. -/
lemma outflow_source (n : ℕ) (A : ℕ → ℕ → ℚ) (nodes1 nodes2 : List ℕ) (f : ℕ × ℕ → ℚ)
    (H : BipartiteInput n A nodes1 nodes2) :
    outflow (arcList n A nodes1 nodes2) f (sourceIdx n)
      = (nodes1.map (fun u => f (sourceIdx n, u))).sum := by
  unfold outflow
  rw [arcList_concat, List.filter_append, List.filter_append, List.filter_append]
  have h1 : (nodes1.map (fun w => (sourceIdx n, w))).filter
      (fun a => decide (a.1 = sourceIdx n)) = nodes1.map (fun w => (sourceIdx n, w)) := by
    apply List.filter_eq_self.mpr
    intro a ha
    rcases List.mem_map.mp ha with ⟨w, _, rfl⟩
    simp
  have h2 : (triu_entries n A).filter (fun a => decide (a.1 = sourceIdx n)) = [] := by
    apply List.filter_eq_nil_iff.mpr
    intro a ha
    have := ((mem_triu_entries n A a).mp ha).1
    simp [sourceIdx]
    omega
  have h3 : (nodes2.map (fun v => (v, sinkIdx n))).filter
      (fun a => decide (a.1 = sourceIdx n)) = [] := by
    apply List.filter_eq_nil_iff.mpr
    intro a ha
    rcases List.mem_map.mp ha with ⟨v, hv, rfl⟩
    have := H.mem2_lt v hv
    simp [sourceIdx]
    omega
  have hr : ([((sinkIdx n, sourceIdx n) : ℕ × ℕ)]).filter
      (fun a => decide (a.1 = sourceIdx n)) = [] := by
    simp [sourceIdx, sinkIdx]
  rw [h1, h2, h3, hr]
  simp [List.map_map]
  rfl

/-- Inflow at the sink is the total flow on the `N2 → sink` arcs. -/
lemma inflow_sink (n : ℕ) (A : ℕ → ℕ → ℚ) (nodes1 nodes2 : List ℕ) (f : ℕ × ℕ → ℚ)
    (H : BipartiteInput n A nodes1 nodes2) :
    inflow (arcList n A nodes1 nodes2) f (sinkIdx n)
      = (nodes2.map (fun v => f (v, sinkIdx n))).sum := by
  unfold inflow
  rw [arcList_concat, List.filter_append, List.filter_append, List.filter_append]
  have h1 : (nodes1.map (fun w => (sourceIdx n, w))).filter
      (fun a => decide (a.2 = sinkIdx n)) = [] := by
    apply List.filter_eq_nil_iff.mpr
    intro a ha
    rcases List.mem_map.mp ha with ⟨w, hw, rfl⟩
    have := H.mem1_lt w hw
    simp [sinkIdx]
    omega
  have h2 : (triu_entries n A).filter (fun a => decide (a.2 = sinkIdx n)) = [] := by
    apply List.filter_eq_nil_iff.mpr
    intro a ha
    have := ((mem_triu_entries n A a).mp ha).2.1
    simp [sinkIdx]
    omega
  have h3 : (nodes2.map (fun v => (v, sinkIdx n))).filter
      (fun a => decide (a.2 = sinkIdx n)) = nodes2.map (fun v => (v, sinkIdx n)) := by
    apply List.filter_eq_self.mpr
    intro a ha
    rcases List.mem_map.mp ha with ⟨v, _, rfl⟩
    simp
  have hr : ([((sinkIdx n, sourceIdx n) : ℕ × ℕ)]).filter
      (fun a => decide (a.2 = sinkIdx n)) = [] := by
    simp [sourceIdx, sinkIdx]
  rw [h1, h2, h3, hr]
  simp [List.map_map]
  rfl

/-- Outflow at the sink is the return-arc flow. -/
lemma outflow_sink (n : ℕ) (A : ℕ → ℕ → ℚ) (nodes1 nodes2 : List ℕ) (f : ℕ × ℕ → ℚ)
    (H : BipartiteInput n A nodes1 nodes2) :
    outflow (arcList n A nodes1 nodes2) f (sinkIdx n)
      = f (sinkIdx n, sourceIdx n) := by
  unfold outflow
  rw [arcList_concat, List.filter_append, List.filter_append, List.filter_append]
  have h1 : (nodes1.map (fun w => (sourceIdx n, w))).filter
      (fun a => decide (a.1 = sinkIdx n)) = [] := by
    apply List.filter_eq_nil_iff.mpr
    intro a ha
    rcases List.mem_map.mp ha with ⟨w, _, rfl⟩
    simp [sourceIdx, sinkIdx]
  have h2 : (triu_entries n A).filter (fun a => decide (a.1 = sinkIdx n)) = [] := by
    apply List.filter_eq_nil_iff.mpr
    intro a ha
    have := ((mem_triu_entries n A a).mp ha).1
    simp [sinkIdx]
    omega
  have h3 : (nodes2.map (fun v => (v, sinkIdx n))).filter
      (fun a => decide (a.1 = sinkIdx n)) = [] := by
    apply List.filter_eq_nil_iff.mpr
    intro a ha
    rcases List.mem_map.mp ha with ⟨v, hv, rfl⟩
    have := H.mem2_lt v hv
    simp [sinkIdx]
    omega
  rw [h1, h2, h3]
  simp

/-- Flows are nonnegative on every arc of a feasible solution. -/
lemma flow_nonneg (n : ℕ) (A : ℕ → ℕ → ℚ) (nodes1 nodes2 : List ℕ) (f : ℕ × ℕ → ℚ)
    (hf : Feasible n A nodes1 nodes2 f) (a : ℕ × ℕ)
    (ha : a ∈ arcList n A nodes1 nodes2) : 0 ≤ f a :=
  (hf.1 a ha).1

/-- Every non-return arc of a feasible solution carries at most one unit. -/
lemma flow_le_one (n : ℕ) (A : ℕ → ℕ → ℚ) (nodes1 nodes2 : List ℕ) (f : ℕ × ℕ → ℚ)
    (hf : Feasible n A nodes1 nodes2 f) (a : ℕ × ℕ)
    (ha : a ∈ arcList n A nodes1 nodes2) (hne : a ≠ (sinkIdx n, sourceIdx n)) :
    f a ≤ 1 := by
  have h := (hf.1 a ha).2
  unfold withinCap arcCap at h
  rw [if_neg hne] at h
  exact h

/-! ### The cut argument: every edge-arc flow is bounded by the return flow -/

/-- Flow across any cut `{source} ∪ [0, j)` balances in a feasible flow. -/
lemma cut_balance (n : ℕ) (A : ℕ → ℕ → ℚ) (nodes1 nodes2 : List ℕ) (f : ℕ × ℕ → ℚ)
    (hf : Feasible n A nodes1 nodes2 f) (j : ℕ) (hj : j ≤ n) :
    (((arcList n A nodes1 nodes2).filter (fun a =>
        decide (a.1 ∈ sourceIdx n :: List.range j)
          && !(decide (a.2 ∈ sourceIdx n :: List.range j)))).map f).sum
      = (((arcList n A nodes1 nodes2).filter (fun a =>
          decide (a.2 ∈ sourceIdx n :: List.range j)
            && !(decide (a.1 ∈ sourceIdx n :: List.range j)))).map f).sum := by
  have hkeys : (sourceIdx n :: List.range j).Nodup := by
    rw [List.nodup_cons]
    refine ⟨?_, List.nodup_range j⟩
    intro h
    have := List.mem_range.mp h
    simp [sourceIdx] at this
    omega
  have hout := sum_bucket (sourceIdx n :: List.range j) (arcList n A nodes1 nodes2)
    Prod.fst f hkeys
  have hin := sum_bucket (sourceIdx n :: List.range j) (arcList n A nodes1 nodes2)
    Prod.snd f hkeys
  have hcons : ((sourceIdx n :: List.range j).map (fun u =>
      (((arcList n A nodes1 nodes2).filter (fun a => decide (a.2 = u))).map f).sum)).sum
        = ((sourceIdx n :: List.range j).map (fun u =>
          (((arcList n A nodes1 nodes2).filter (fun a => decide (a.1 = u))).map f).sum)).sum := by
    apply congrArg
    apply List.map_eq_map_iff.mpr
    intro v hv
    have hvlt : v < n + 2 := by
      rcases List.mem_cons.mp hv with h | h
      · rw [h]
        simp [sourceIdx]
      · have := List.mem_range.mp h
        omega
    exact hf.2 v hvlt
  have hsum : (((arcList n A nodes1 nodes2).filter (fun a =>
      decide (a.1 ∈ sourceIdx n :: List.range j))).map f).sum
        = (((arcList n A nodes1 nodes2).filter (fun a =>
          decide (a.2 ∈ sourceIdx n :: List.range j))).map f).sum := by
    rw [← hout, ← hin]
    exact hcons.symm
  have hsplit1 := sum_filter_split (arcList n A nodes1 nodes2)
    (fun a => decide (a.1 ∈ sourceIdx n :: List.range j))
    (fun a => decide (a.2 ∈ sourceIdx n :: List.range j)) f
  have hsplit2 := sum_filter_split (arcList n A nodes1 nodes2)
    (fun a => decide (a.2 ∈ sourceIdx n :: List.range j))
    (fun a => decide (a.1 ∈ sourceIdx n :: List.range j)) f
  have hboth : ((arcList n A nodes1 nodes2).filter (fun a =>
      decide (a.1 ∈ sourceIdx n :: List.range j)
        && decide (a.2 ∈ sourceIdx n :: List.range j)))
        = ((arcList n A nodes1 nodes2).filter (fun a =>
          decide (a.2 ∈ sourceIdx n :: List.range j)
            && decide (a.1 ∈ sourceIdx n :: List.range j))) := by
    apply List.filter_congr
    intro a _
    exact Bool.and_comm _ _
  rw [hsplit1, hsplit2, hboth] at hsum
  linarith

/-- The arcs entering the cut `{source} ∪ [0, j)` are exactly the return arc. -/
lemma cut_entering (n : ℕ) (A : ℕ → ℕ → ℚ) (nodes1 nodes2 : List ℕ)
    (H : BipartiteInput n A nodes1 nodes2) (j : ℕ) (hj : j ≤ n) :
    (arcList n A nodes1 nodes2).filter (fun a =>
        decide (a.2 ∈ sourceIdx n :: List.range j)
          && !(decide (a.1 ∈ sourceIdx n :: List.range j)))
      = [(sinkIdx n, sourceIdx n)] := by
  rw [arcList_concat, List.filter_append, List.filter_append, List.filter_append]
  have h1 : (nodes1.map (fun w => (sourceIdx n, w))).filter (fun a =>
      decide (a.2 ∈ sourceIdx n :: List.range j)
        && !(decide (a.1 ∈ sourceIdx n :: List.range j))) = [] := by
    apply List.filter_eq_nil_iff.mpr
    intro a ha
    rcases List.mem_map.mp ha with ⟨w, _, rfl⟩
    simp
  have h2 : (triu_entries n A).filter (fun a =>
      decide (a.2 ∈ sourceIdx n :: List.range j)
        && !(decide (a.1 ∈ sourceIdx n :: List.range j))) = [] := by
    apply List.filter_eq_nil_iff.mpr
    intro a ha
    rcases (mem_triu_entries n A a).mp ha with ⟨ha1, ha2, hale, -⟩
    simp only [Bool.and_eq_true, Bool.not_eq_true', decide_eq_true_eq,
      decide_eq_false_iff_not, List.mem_cons, List.mem_range, sourceIdx]
    omega
  have h3 : (nodes2.map (fun v => (v, sinkIdx n))).filter (fun a =>
      decide (a.2 ∈ sourceIdx n :: List.range j)
        && !(decide (a.1 ∈ sourceIdx n :: List.range j))) = [] := by
    apply List.filter_eq_nil_iff.mpr
    intro a ha
    rcases List.mem_map.mp ha with ⟨v, _, rfl⟩
    simp only [Bool.and_eq_true, Bool.not_eq_true', decide_eq_true_eq,
      decide_eq_false_iff_not, List.mem_cons, List.mem_range, sourceIdx, sinkIdx]
    omega
  have hr : ([((sinkIdx n, sourceIdx n) : ℕ × ℕ)]).filter (fun a =>
      decide (a.2 ∈ sourceIdx n :: List.range j)
        && !(decide (a.1 ∈ sourceIdx n :: List.range j)))
      = [(sinkIdx n, sourceIdx n)] := by
    simp [List.filter_cons, sourceIdx, sinkIdx]
    omega
  rw [h1, h2, h3, hr]
  simp

/-- Any edge-arc flow in a feasible solution is at most the return-arc flow. -/
lemma edge_flow_le_return (n : ℕ) (A : ℕ → ℕ → ℚ) (nodes1 nodes2 : List ℕ)
    (f : ℕ × ℕ → ℚ) (H : BipartiteInput n A nodes1 nodes2)
    (hf : Feasible n A nodes1 nodes2 f) (e : ℕ × ℕ) (he : e ∈ triu_entries n A) :
    f e ≤ f (sinkIdx n, sourceIdx n) := by
  rcases (mem_triu_entries n A e).mp he with ⟨he1, he2, hele, hene⟩
  have helt : e.1 < e.2 := triu_lt n A H.loopfree e he
  have hj : e.1 + 1 ≤ n := he1
  have hbal := cut_balance n A nodes1 nodes2 f hf (e.1 + 1) hj
  rw [cut_entering n A nodes1 nodes2 H (e.1 + 1) hj] at hbal
  have hmem : e ∈ (arcList n A nodes1 nodes2).filter (fun a =>
      decide (a.1 ∈ sourceIdx n :: List.range (e.1 + 1))
        && !(decide (a.2 ∈ sourceIdx n :: List.range (e.1 + 1)))) := by
    apply List.mem_filter.mpr
    refine ⟨(mem_arcList n A nodes1 nodes2 e).mpr (Or.inr (Or.inl he)), ?_⟩
    simp only [Bool.and_eq_true, Bool.not_eq_true', decide_eq_true_eq,
      decide_eq_false_iff_not, List.mem_cons, List.mem_range]
    constructor
    · right
      omega
    · rintro (h | h)
      · simp [sourceIdx] at h
        omega
      · omega
  have hle : f e ≤ (((arcList n A nodes1 nodes2).filter (fun a =>
      decide (a.1 ∈ sourceIdx n :: List.range (e.1 + 1))
        && !(decide (a.2 ∈ sourceIdx n :: List.range (e.1 + 1))))).map f).sum := by
    apply mem_le_sum _ f e hmem
    intro x hx
    exact flow_nonneg n A nodes1 nodes2 f hf x (List.mem_of_mem_filter hx)
  calc f e ≤ _ := hle
    _ = _ := hbal
    _ = f (sinkIdx n, sourceIdx n) := by simp

/-! ### The selected arcs -/

/-- Under feasibility, the `[:-1]` drop removes exactly the return arc: the
selected arcs are the edge arcs passing the mask.  (If the return arc passes
the mask it is the last selected entry; if it does not, its flow is at most
one half, and by the cut bound no edge arc passes the mask either.) -/
lemma selectedArcs_eq (n : ℕ) (A : ℕ → ℕ → ℚ) (nodes1 nodes2 : List ℕ)
    (f : ℕ × ℕ → ℚ) (H : BipartiteInput n A nodes1 nodes2)
    (hf : Feasible n A nodes1 nodes2 f) :
    selectedArcs n A nodes1 nodes2 f = (triu_entries n A).filter (selectMask n f) := by
  unfold selectedArcs
  rw [filter_mask_arcList]
  by_cases h : (1 : ℚ) / 2 < f (sinkIdx n, sourceIdx n)
  · rw [if_pos h, List.dropLast_concat]
  · rw [if_neg h]
    have hnil : (triu_entries n A).filter (selectMask n f) = [] := by
      apply List.filter_eq_nil_iff.mpr
      intro e he hmask
      have h12 : (1 : ℚ) / 2 < f e := by
        simp only [selectMask, Bool.and_eq_true, decide_eq_true_eq] at hmask
        exact hmask.1.1
      have := edge_flow_le_return n A nodes1 nodes2 f H hf e he
      exact h (lt_of_lt_of_le h12 this)
    rw [hnil]
    simp

/-- The selected arcs are edge arcs with flow above one half. -/
lemma mem_selectedArcs_iff (n : ℕ) (A : ℕ → ℕ → ℚ) (nodes1 nodes2 : List ℕ)
    (f : ℕ × ℕ → ℚ) (H : BipartiteInput n A nodes1 nodes2)
    (hf : Feasible n A nodes1 nodes2 f) (a : ℕ × ℕ) :
    a ∈ selectedArcs n A nodes1 nodes2 f
      ↔ a ∈ triu_entries n A ∧ (1 : ℚ) / 2 < f a := by
  rw [selectedArcs_eq n A nodes1 nodes2 f H hf, List.mem_filter]
  constructor
  · rintro ⟨hmem, hmask⟩
    simp only [selectMask, Bool.and_eq_true, decide_eq_true_eq] at hmask
    exact ⟨hmem, hmask.1.1⟩
  · rintro ⟨hmem, hflow⟩
    refine ⟨hmem, ?_⟩
    rcases (mem_triu_entries n A a).mp hmem with ⟨h1, h2, -, -⟩
    simp only [selectMask, Bool.and_eq_true, decide_eq_true_eq]
    refine ⟨⟨hflow, ?_⟩, ?_⟩
    · simp [sourceIdx]
      omega
    · simp [sinkIdx]
      omega

/-- The selected arcs contain no duplicates. -/
lemma selectedArcs_nodup (n : ℕ) (A : ℕ → ℕ → ℚ) (nodes1 nodes2 : List ℕ)
    (f : ℕ × ℕ → ℚ) (H : BipartiteInput n A nodes1 nodes2)
    (hf : Feasible n A nodes1 nodes2 f) :
    (selectedArcs n A nodes1 nodes2 f).Nodup := by
  rw [selectedArcs_eq n A nodes1 nodes2 f H hf]
  exact (triu_entries_nodup n A).filter _

/-! ### Orientation consequences -/

/-- With the orientation hypothesis, each edge arc runs from partition 1 to
partition 2. -/
lemma triu_oriented (n : ℕ) (A : ℕ → ℕ → ℚ) (nodes1 nodes2 : List ℕ)
    (H : BipartiteInput n A nodes1 nodes2) (HO : Oriented n A nodes1 nodes2)
    (e : ℕ × ℕ) (he : e ∈ triu_entries n A) : e.1 ∈ nodes1 ∧ e.2 ∈ nodes2 := by
  rcases (mem_triu_entries n A e).mp he with ⟨h1, h2, hle, hne⟩
  exact HO e.1 e.2 (triu_lt n A H.loopfree e he) h2 hne

/-- Conservation at a partition-1 node: the total edge-arc flow out of it
equals its source-arc flow. -/
lemma edge_out_eq_source (n : ℕ) (A : ℕ → ℕ → ℚ) (nodes1 nodes2 : List ℕ)
    (f : ℕ × ℕ → ℚ) (H : BipartiteInput n A nodes1 nodes2)
    (HO : Oriented n A nodes1 nodes2) (hf : Feasible n A nodes1 nodes2 f)
    (u : ℕ) (hu : u ∈ nodes1) :
    (((triu_entries n A).filter (fun e => decide (e.1 = u))).map f).sum
      = f (sourceIdx n, u) := by
  have hult := H.mem1_lt u hu
  have hcons := hf.2 u (by omega)
  rw [inflow_node n A nodes1 nodes2 f H u hult,
    outflow_node n A nodes1 nodes2 f H u hult] at hcons
  have hhead : (triu_entries n A).filter (fun e => decide (e.2 = u)) = [] := by
    apply List.filter_eq_nil_iff.mpr
    intro e he
    simp only [decide_eq_true_eq]
    intro heq
    exact H.disj u hu (heq ▸ (triu_oriented n A nodes1 nodes2 H HO e he).2)
  have hsnk : u ∉ nodes2 := H.disj u hu
  rw [if_pos hu, hhead, if_neg hsnk] at hcons
  simp at hcons
  linarith

/-- Conservation at a partition-2 node: the total edge-arc flow into it equals
its sink-arc flow. -/
lemma edge_in_eq_sink (n : ℕ) (A : ℕ → ℕ → ℚ) (nodes1 nodes2 : List ℕ)
    (f : ℕ × ℕ → ℚ) (H : BipartiteInput n A nodes1 nodes2)
    (HO : Oriented n A nodes1 nodes2) (hf : Feasible n A nodes1 nodes2 f)
    (v : ℕ) (hv : v ∈ nodes2) :
    (((triu_entries n A).filter (fun e => decide (e.2 = v))).map f).sum
      = f (v, sinkIdx n) := by
  have hvlt := H.mem2_lt v hv
  have hcons := hf.2 v (by omega)
  rw [inflow_node n A nodes1 nodes2 f H v hvlt,
    outflow_node n A nodes1 nodes2 f H v hvlt] at hcons
  have htail : (triu_entries n A).filter (fun e => decide (e.1 = v)) = [] := by
    apply List.filter_eq_nil_iff.mpr
    intro e he
    simp only [decide_eq_true_eq]
    intro heq
    have h1 := (triu_oriented n A nodes1 nodes2 H HO e he).1
    rw [heq] at h1
    exact H.disj v h1 hv
  have hsrc : v ∉ nodes1 := fun hcon => H.disj v hcon hv
  rw [if_neg hsrc, htail, if_pos hv] at hcons
  simp at hcons
  linarith

/-- A source arc of a partition-1 node belongs to the arc list. -/
lemma source_arc_mem (n : ℕ) (A : ℕ → ℕ → ℚ) (nodes1 nodes2 : List ℕ)
    (u : ℕ) (hu : u ∈ nodes1) :
    ((sourceIdx n, u) : ℕ × ℕ) ∈ arcList n A nodes1 nodes2 :=
  (mem_arcList n A nodes1 nodes2 _).mpr (Or.inl ⟨rfl, hu⟩)

/-- A sink arc of a partition-2 node belongs to the arc list. -/
lemma sink_arc_mem (n : ℕ) (A : ℕ → ℕ → ℚ) (nodes1 nodes2 : List ℕ)
    (v : ℕ) (hv : v ∈ nodes2) :
    ((v, sinkIdx n) : ℕ × ℕ) ∈ arcList n A nodes1 nodes2 :=
  (mem_arcList n A nodes1 nodes2 _).mpr (Or.inr (Or.inr (Or.inl ⟨hv, rfl⟩)))

/-- An edge arc belongs to the arc list. -/
lemma triu_arc_mem (n : ℕ) (A : ℕ → ℕ → ℚ) (nodes1 nodes2 : List ℕ)
    (e : ℕ × ℕ) (he : e ∈ triu_entries n A) : e ∈ arcList n A nodes1 nodes2 :=
  (mem_arcList n A nodes1 nodes2 _).mpr (Or.inr (Or.inl he))

/-- Two distinct selected arcs of a feasible flow share no endpoint: with unit
capacities on the source and sink arcs, at most one unit enters a partition-1
node and at most one unit leaves a partition-2 node, while each selected arc
carries more than half a unit. -/
lemma selected_disjoint (n : ℕ) (A : ℕ → ℕ → ℚ) (nodes1 nodes2 : List ℕ)
    (f : ℕ × ℕ → ℚ) (H : BipartiteInput n A nodes1 nodes2)
    (HO : Oriented n A nodes1 nodes2) (hf : Feasible n A nodes1 nodes2 f)
    (e1 e2 : ℕ × ℕ) (h1 : e1 ∈ selectedArcs n A nodes1 nodes2 f)
    (h2 : e2 ∈ selectedArcs n A nodes1 nodes2 f) (hne : e1 ≠ e2) :
    EdgeDisjoint e1 e2 := by
  rcases (mem_selectedArcs_iff n A nodes1 nodes2 f H hf e1).mp h1 with ⟨ht1, hf1⟩
  rcases (mem_selectedArcs_iff n A nodes1 nodes2 f H hf e2).mp h2 with ⟨ht2, hf2⟩
  have ho1 := triu_oriented n A nodes1 nodes2 H HO e1 ht1
  have ho2 := triu_oriented n A nodes1 nodes2 H HO e2 ht2
  have hnonneg : ∀ x ∈ (triu_entries n A).filter (fun e => decide (e.1 = e1.1)), 0 ≤ f x := by
    intro x hx
    exact flow_nonneg n A nodes1 nodes2 f hf x
      (triu_arc_mem n A nodes1 nodes2 x (List.mem_of_mem_filter hx))
  refine ⟨?_, ?_, ?_, ?_⟩
  · intro he
    have hm1 : e1 ∈ (triu_entries n A).filter (fun e => decide (e.1 = e1.1)) :=
      List.mem_filter.mpr ⟨ht1, by simp⟩
    have hm2 : e2 ∈ (triu_entries n A).filter (fun e => decide (e.1 = e1.1)) :=
      List.mem_filter.mpr ⟨ht2, by simp [he]⟩
    have hsum := two_mem_le_sum _ f e1 e2 hm1 hm2 hne hnonneg
    rw [edge_out_eq_source n A nodes1 nodes2 f H HO hf e1.1 ho1.1] at hsum
    have hcap := flow_le_one n A nodes1 nodes2 f hf (sourceIdx n, e1.1)
      (source_arc_mem n A nodes1 nodes2 e1.1 ho1.1)
      (by
        intro hcon
        have := congrArg Prod.fst hcon
        simp [sourceIdx, sinkIdx] at this)
    linarith
  · intro he
    exact H.disj e1.1 ho1.1 (he ▸ ho2.2)
  · intro he
    have h := ho2.1
    rw [← he] at h
    exact H.disj e1.2 h ho1.2
  · intro he
    have hm1 : e1 ∈ (triu_entries n A).filter (fun e => decide (e.2 = e1.2)) :=
      List.mem_filter.mpr ⟨ht1, by simp⟩
    have hm2 : e2 ∈ (triu_entries n A).filter (fun e => decide (e.2 = e1.2)) :=
      List.mem_filter.mpr ⟨ht2, by simp [he]⟩
    have hnonneg2 : ∀ x ∈ (triu_entries n A).filter (fun e => decide (e.2 = e1.2)),
        0 ≤ f x := by
      intro x hx
      exact flow_nonneg n A nodes1 nodes2 f hf x
        (triu_arc_mem n A nodes1 nodes2 x (List.mem_of_mem_filter hx))
    have hsum := two_mem_le_sum _ f e1 e2 hm1 hm2 hne hnonneg2
    rw [edge_in_eq_sink n A nodes1 nodes2 f H HO hf e1.2 ho1.2] at hsum
    have hcap := flow_le_one n A nodes1 nodes2 f hf (e1.2, sinkIdx n)
      (sink_arc_mem n A nodes1 nodes2 e1.2 ho1.2)
      (by
        intro hcon
        have h2 := congrArg Prod.fst hcon
        have := H.mem2_lt e1.2 ho1.2
        simp [sinkIdx] at h2
        omega)
    linarith

/-- Every node is incident to at most one selected arc. -/
lemma selected_degree_le_one (n : ℕ) (A : ℕ → ℕ → ℚ) (nodes1 nodes2 : List ℕ)
    (f : ℕ × ℕ → ℚ) (H : BipartiteInput n A nodes1 nodes2)
    (HO : Oriented n A nodes1 nodes2) (hf : Feasible n A nodes1 nodes2 f)
    (v : ℕ) : selDegree (selectedArcs n A nodes1 nodes2 f) v ≤ 1 := by
  unfold selDegree
  apply length_le_one_of_nodup_all_eq _
    ((selectedArcs_nodup n A nodes1 nodes2 f H hf).filter _)
  intro a ha b hb
  rcases List.mem_filter.mp ha with ⟨ha1, ha2⟩
  rcases List.mem_filter.mp hb with ⟨hb1, hb2⟩
  by_contra hne
  have hd := selected_disjoint n A nodes1 nodes2 f H HO hf a b ha1 hb1 hne
  simp only [Bool.or_eq_true, decide_eq_true_eq] at ha2 hb2
  rcases ha2 with h | h <;> rcases hb2 with h2 | h2
  · exact hd.1 (h.trans h2.symm)
  · exact hd.2.1 (h.trans h2.symm)
  · exact hd.2.2.1 (h.trans h2.symm)
  · exact hd.2.2.2 (h.trans h2.symm)

/-- The swap of a selected arc is never selected. -/
lemma swap_not_selected (n : ℕ) (A : ℕ → ℕ → ℚ) (nodes1 nodes2 : List ℕ)
    (f : ℕ × ℕ → ℚ) (H : BipartiteInput n A nodes1 nodes2)
    (hf : Feasible n A nodes1 nodes2 f) (a : ℕ × ℕ)
    (ha : a ∈ selectedArcs n A nodes1 nodes2 f) :
    ((a.2, a.1) : ℕ × ℕ) ∉ selectedArcs n A nodes1 nodes2 f := by
  intro hb
  rcases (mem_selectedArcs_iff n A nodes1 nodes2 f H hf a).mp ha with ⟨ht, -⟩
  rcases (mem_selectedArcs_iff n A nodes1 nodes2 f H hf _).mp hb with ⟨ht2, -⟩
  have h1 := ((mem_triu_entries n A a).mp ht).2.2.1
  have h2 := ((mem_triu_entries n A _).mp ht2).2.2.1
  simp only at h2
  have hlt := triu_lt n A H.loopfree a ht
  omega

/-! ### Integral flows and the matching they select -/

/-- In an integral feasible flow, every unit-capacity arc carries 0 or 1. -/
lemma flow_zero_or_one (n : ℕ) (A : ℕ → ℕ → ℚ) (nodes1 nodes2 : List ℕ)
    (f : ℕ × ℕ → ℚ) (hf : Feasible n A nodes1 nodes2 f) (hint : IntegralFlow f)
    (a : ℕ × ℕ) (ha : a ∈ arcList n A nodes1 nodes2)
    (hne : a ≠ (sinkIdx n, sourceIdx n)) : f a = 0 ∨ f a = 1 := by
  rcases hint a with ⟨k, hk⟩
  have h1 := flow_le_one n A nodes1 nodes2 f hf a ha hne
  rw [hk] at h1 ⊢
  have hk1 : k ≤ 1 := by exact_mod_cast h1
  interval_cases k
  · exact Or.inl (by norm_num)
  · exact Or.inr (by norm_num)

/-- For an integral feasible flow, the number of selected arcs equals the
total flow over the edge arcs. -/
lemma selected_length_eq_sum (n : ℕ) (A : ℕ → ℕ → ℚ) (nodes1 nodes2 : List ℕ)
    (f : ℕ × ℕ → ℚ) (H : BipartiteInput n A nodes1 nodes2)
    (hf : Feasible n A nodes1 nodes2 f) (hint : IntegralFlow f) :
    (((selectedArcs n A nodes1 nodes2 f).length : ℚ))
      = ((triu_entries n A).map f).sum := by
  rw [selectedArcs_eq n A nodes1 nodes2 f H hf, ← sum_ite_len]
  apply congrArg
  apply List.map_eq_map_iff.mpr
  intro e he
  rcases flow_zero_or_one n A nodes1 nodes2 f hf hint e
    (triu_arc_mem n A nodes1 nodes2 e he)
    (by
      intro hcon
      have h1 := ((mem_triu_entries n A e).mp he).1
      have := congrArg Prod.fst hcon
      simp [sinkIdx] at this
      omega) with h0 | h1
  · rw [h0, if_neg]
    intro hmask
    simp only [selectMask, Bool.and_eq_true, decide_eq_true_eq] at hmask
    rw [h0] at hmask
    norm_num at hmask
  · rw [h1, if_pos]
    rcases (mem_triu_entries n A e).mp he with ⟨hlt1, hlt2, -, -⟩
    simp only [selectMask, Bool.and_eq_true, decide_eq_true_eq]
    refine ⟨⟨by rw [h1]; norm_num, ?_⟩, ?_⟩
    · simp [sourceIdx]
      omega
    · simp [sinkIdx]
      omega

/-- The total edge-arc flow equals the return-arc flow (sum conservation over
partition 1 and then at the source). -/
lemma sum_edge_eq_return (n : ℕ) (A : ℕ → ℕ → ℚ) (nodes1 nodes2 : List ℕ)
    (f : ℕ × ℕ → ℚ) (H : BipartiteInput n A nodes1 nodes2)
    (HO : Oriented n A nodes1 nodes2) (hf : Feasible n A nodes1 nodes2 f) :
    ((triu_entries n A).map f).sum = f (sinkIdx n, sourceIdx n) := by
  have hbucket := sum_bucket nodes1 (triu_entries n A) Prod.fst f H.nodup1
  have hall : (triu_entries n A).filter (fun a => decide (a.1 ∈ nodes1))
      = triu_entries n A := by
    apply List.filter_eq_self.mpr
    intro e he
    simp only [decide_eq_true_eq]
    exact (triu_oriented n A nodes1 nodes2 H HO e he).1
  rw [hall] at hbucket
  have hinner : nodes1.map (fun u =>
      (((triu_entries n A).filter (fun a => decide (a.1 = u))).map f).sum)
        = nodes1.map (fun u => f (sourceIdx n, u)) := by
    apply List.map_eq_map_iff.mpr
    intro u hu
    exact edge_out_eq_source n A nodes1 nodes2 f H HO hf u hu
  rw [hinner] at hbucket
  have hsrc := hf.2 (sourceIdx n) (by simp [sourceIdx])
  rw [inflow_source n A nodes1 nodes2 f H, outflow_source n A nodes1 nodes2 f H] at hsrc
  rw [← hbucket, ← hsrc]

/-- The selected arcs of a feasible flow form a matching of the input graph. -/
lemma selected_isMatching (n : ℕ) (A : ℕ → ℕ → ℚ) (nodes1 nodes2 : List ℕ)
    (f : ℕ × ℕ → ℚ) (H : BipartiteInput n A nodes1 nodes2)
    (HO : Oriented n A nodes1 nodes2) (hf : Feasible n A nodes1 nodes2 f) :
    IsMatching n A (selectedArcs n A nodes1 nodes2 f) := by
  refine ⟨selectedArcs_nodup n A nodes1 nodes2 f H hf, ?_, ?_⟩
  · intro e he
    have ht := ((mem_selectedArcs_iff n A nodes1 nodes2 f H hf e).mp he).1
    rcases (mem_triu_entries n A e).mp ht with ⟨h1, h2, h3, h4⟩
    exact ⟨triu_lt n A H.loopfree e ht, h2, h4⟩
  · intro e1 h1 e2 h2 hne
    exact selected_disjoint n A nodes1 nodes2 f H HO hf e1 e2 h1 h2 hne

/-! ### The circulation induced by a matching -/

/-- A matching consists of triangular entries. -/
lemma matching_sub_triu (n : ℕ) (A : ℕ → ℕ → ℚ) (M : List (ℕ × ℕ))
    (hM : IsMatching n A M) : ∀ e ∈ M, e ∈ triu_entries n A := by
  intro e he
  rcases hM.2.1 e he with ⟨hlt, hn, hne⟩
  exact (mem_triu_entries n A e).mpr ⟨lt_trans hlt hn, hn, le_of_lt hlt, hne⟩

/-- Value of the induced circulation on an edge arc. -/
lemma flowOf_edge (n : ℕ) (A : ℕ → ℕ → ℚ) (M : List (ℕ × ℕ))
    (hM : IsMatching n A M) (e : ℕ × ℕ) (he : e ∈ triu_entries n A) :
    flowOfMatching n M e = if e ∈ M then 1 else 0 := by
  rcases (mem_triu_entries n A e).mp he with ⟨h1, h2, -, -⟩
  unfold flowOfMatching
  by_cases hmem : e ∈ M
  · rw [if_pos hmem, if_pos hmem]
  · rw [if_neg hmem, if_neg hmem, if_neg, if_neg, if_neg]
    · intro hcon
      have := congrArg Prod.fst hcon
      simp only [sinkIdx] at this
      omega
    · rintro ⟨hsnk, -⟩
      simp [sinkIdx] at hsnk
      omega
    · rintro ⟨hsrc, -⟩
      simp [sourceIdx] at hsrc
      omega

/-- Value of the induced circulation on a source arc. -/
lemma flowOf_source_arc (n : ℕ) (A : ℕ → ℕ → ℚ) (M : List (ℕ × ℕ))
    (hM : IsMatching n A M) (u : ℕ) :
    flowOfMatching n M (sourceIdx n, u)
      = if M.any (fun e => decide (e.1 = u)) then 1 else 0 := by
  have hnm : ((sourceIdx n, u) : ℕ × ℕ) ∉ M := by
    intro hcon
    have := (hM.2.1 _ hcon).2.2
    have h1 := (hM.2.1 _ hcon).1
    have h2 := (hM.2.1 _ hcon).2.1
    simp only [sourceIdx] at h1 h2
    omega
  have hnot3 : ¬ (((sourceIdx n, u) : ℕ × ℕ).2 = sinkIdx n
      ∧ M.any (fun e => decide (e.2 = ((sourceIdx n, u) : ℕ × ℕ).1)) = true) := by
    rintro ⟨-, hany2⟩
    rcases List.any_eq_true.mp hany2 with ⟨e, he, hdec⟩
    simp only [decide_eq_true_eq, sourceIdx] at hdec
    have h2 := (hM.2.1 e he).2.1
    omega
  have hnot4 : ((sourceIdx n, u) : ℕ × ℕ) ≠ (sinkIdx n, sourceIdx n) := by
    intro hcon
    have := congrArg Prod.fst hcon
    simp [sourceIdx, sinkIdx] at this
  unfold flowOfMatching
  by_cases hany : M.any (fun e => decide (e.1 = u))
  · rw [if_neg hnm, if_pos ⟨rfl, hany⟩, if_pos hany]
  · rw [if_neg hnm, if_neg (fun hcon => hany hcon.2), if_neg hnot3, if_neg hnot4,
      if_neg hany]

/-- Value of the induced circulation on a sink arc. -/
lemma flowOf_sink_arc (n : ℕ) (A : ℕ → ℕ → ℚ) (M : List (ℕ × ℕ))
    (hM : IsMatching n A M) (v : ℕ) :
    flowOfMatching n M (v, sinkIdx n)
      = if M.any (fun e => decide (e.2 = v)) then 1 else 0 := by
  have hnm : ((v, sinkIdx n) : ℕ × ℕ) ∉ M := by
    intro hcon
    have h2 := (hM.2.1 _ hcon).2.1
    simp only [sinkIdx] at h2
    omega
  unfold flowOfMatching
  rw [if_neg hnm]
  have hnot2 : ¬ (((v, sinkIdx n) : ℕ × ℕ).1 = sourceIdx n
      ∧ M.any (fun e => decide (e.1 = ((v, sinkIdx n) : ℕ × ℕ).2))) := by
    rintro ⟨-, hany⟩
    rcases List.any_eq_true.mp hany with ⟨e, he, hdec⟩
    simp only [decide_eq_true_eq, sinkIdx] at hdec
    have h1 := (hM.2.1 e he).1
    have h2 := (hM.2.1 e he).2.1
    omega
  have hnot4 : ((v, sinkIdx n) : ℕ × ℕ) ≠ (sinkIdx n, sourceIdx n) := by
    intro hcon
    have := congrArg Prod.snd hcon
    simp [sourceIdx, sinkIdx] at this
  by_cases hany : M.any (fun e => decide (e.2 = v))
  · rw [if_neg hnot2, if_pos ⟨rfl, hany⟩, if_pos hany]
  · rw [if_neg hnot2, if_neg (fun hcon => hany hcon.2), if_neg hnot4, if_neg hany]

/-- Value of the induced circulation on the return arc. -/
lemma flowOf_return (n : ℕ) (A : ℕ → ℕ → ℚ) (M : List (ℕ × ℕ))
    (hM : IsMatching n A M) :
    flowOfMatching n M (sinkIdx n, sourceIdx n) = (M.length : ℚ) := by
  have hnm : ((sinkIdx n, sourceIdx n) : ℕ × ℕ) ∉ M := by
    intro hcon
    have h1 := (hM.2.1 _ hcon).1
    have h2 := (hM.2.1 _ hcon).2.1
    simp only [sinkIdx, sourceIdx] at h1 h2
    omega
  unfold flowOfMatching
  rw [if_neg hnm, if_neg, if_neg, if_pos rfl]
  · rintro ⟨hsnk, -⟩
    simp [sourceIdx, sinkIdx] at hsnk
  · rintro ⟨hsrc, -⟩
    simp [sourceIdx, sinkIdx] at hsrc

/-- Edge-arc sums of the induced circulation count matched edges. -/
lemma sum_flowOf_filter (n : ℕ) (A : ℕ → ℕ → ℚ) (M : List (ℕ × ℕ))
    (hM : IsMatching n A M) (p : ℕ × ℕ → Bool) :
    (((triu_entries n A).filter p).map (flowOfMatching n M)).sum
      = ((M.filter p).length : ℚ) := by
  have hpt : ((triu_entries n A).filter p).map (flowOfMatching n M)
      = ((triu_entries n A).filter p).map (fun e => if decide (e ∈ M) then (1 : ℚ) else 0) := by
    apply List.map_eq_map_iff.mpr
    intro e he
    rw [flowOf_edge n A M hM e (List.mem_of_mem_filter he)]
    by_cases hmem : e ∈ M
    · rw [if_pos hmem, if_pos (by simp [hmem])]
    · rw [if_neg hmem, if_neg (by simp [hmem])]
  rw [hpt, sum_ite_len]
  apply congrArg
  apply length_eq_of_nodup_mem_iff
  · exact ((triu_entries_nodup n A).filter p).filter _
  · exact hM.1.filter p
  · intro e
    simp only [List.mem_filter, decide_eq_true_eq]
    constructor
    · rintro ⟨⟨-, hp⟩, hm⟩
      exact ⟨hm, hp⟩
    · rintro ⟨hm, hp⟩
      exact ⟨⟨matching_sub_triu n A M hM e hm, hp⟩, hm⟩

/-- At most one matched edge leaves any node, and exactly one when the node is
a matched tail. -/
lemma matching_filter_tail (n : ℕ) (A : ℕ → ℕ → ℚ) (M : List (ℕ × ℕ))
    (hM : IsMatching n A M) (v : ℕ) :
    ((M.filter (fun e => decide (e.1 = v))).length : ℚ)
      = if M.any (fun e => decide (e.1 = v)) then 1 else 0 := by
  by_cases hany : M.any (fun e => decide (e.1 = v))
  · rw [if_pos hany]
    rcases List.any_eq_true.mp hany with ⟨e0, he0, hdec⟩
    have hmem : e0 ∈ M.filter (fun e => decide (e.1 = v)) :=
      List.mem_filter.mpr ⟨he0, hdec⟩
    have hle : (M.filter (fun e => decide (e.1 = v))).length ≤ 1 := by
      apply length_le_one_of_nodup_all_eq _ (hM.1.filter _)
      intro a ha b hb
      rcases List.mem_filter.mp ha with ⟨ha1, ha2⟩
      rcases List.mem_filter.mp hb with ⟨hb1, hb2⟩
      by_contra hne
      have hd := hM.2.2 a ha1 b hb1 hne
      simp only [decide_eq_true_eq] at ha2 hb2
      exact hd.1 (ha2.trans hb2.symm)
    have hpos : 0 < (M.filter (fun e => decide (e.1 = v))).length :=
      List.length_pos.mpr (List.ne_nil_of_mem hmem)
    have : (M.filter (fun e => decide (e.1 = v))).length = 1 := by omega
    rw [this]
    norm_num
  · rw [if_neg hany]
    have : M.filter (fun e => decide (e.1 = v)) = [] := by
      apply List.filter_eq_nil_iff.mpr
      intro e he hdec
      exact hany (List.any_eq_true.mpr ⟨e, he, hdec⟩)
    rw [this]
    norm_num

/-- At most one matched edge enters any node, and exactly one when the node is
a matched head. -/
lemma matching_filter_head (n : ℕ) (A : ℕ → ℕ → ℚ) (M : List (ℕ × ℕ))
    (hM : IsMatching n A M) (v : ℕ) :
    ((M.filter (fun e => decide (e.2 = v))).length : ℚ)
      = if M.any (fun e => decide (e.2 = v)) then 1 else 0 := by
  by_cases hany : M.any (fun e => decide (e.2 = v))
  · rw [if_pos hany]
    rcases List.any_eq_true.mp hany with ⟨e0, he0, hdec⟩
    have hmem : e0 ∈ M.filter (fun e => decide (e.2 = v)) :=
      List.mem_filter.mpr ⟨he0, hdec⟩
    have hle : (M.filter (fun e => decide (e.2 = v))).length ≤ 1 := by
      apply length_le_one_of_nodup_all_eq _ (hM.1.filter _)
      intro a ha b hb
      rcases List.mem_filter.mp ha with ⟨ha1, ha2⟩
      rcases List.mem_filter.mp hb with ⟨hb1, hb2⟩
      by_contra hne
      have hd := hM.2.2 a ha1 b hb1 hne
      simp only [decide_eq_true_eq] at ha2 hb2
      exact hd.2.2.2 (ha2.trans hb2.symm)
    have hpos : 0 < (M.filter (fun e => decide (e.2 = v))).length :=
      List.length_pos.mpr (List.ne_nil_of_mem hmem)
    have : (M.filter (fun e => decide (e.2 = v))).length = 1 := by omega
    rw [this]
    norm_num
  · rw [if_neg hany]
    have : M.filter (fun e => decide (e.2 = v)) = [] := by
      apply List.filter_eq_nil_iff.mpr
      intro e he hdec
      exact hany (List.any_eq_true.mpr ⟨e, he, hdec⟩)
    rw [this]
    norm_num

/-- The endpoints of a matched edge lie in the two partitions. -/
lemma matching_oriented (n : ℕ) (A : ℕ → ℕ → ℚ) (nodes1 nodes2 : List ℕ)
    (M : List (ℕ × ℕ)) (H : BipartiteInput n A nodes1 nodes2)
    (HO : Oriented n A nodes1 nodes2) (hM : IsMatching n A M)
    (e : ℕ × ℕ) (he : e ∈ M) : e.1 ∈ nodes1 ∧ e.2 ∈ nodes2 :=
  triu_oriented n A nodes1 nodes2 H HO e (matching_sub_triu n A M hM e he)

/-- Summing the matched-tail indicator over partition 1 counts the matching. -/
lemma sum_tail_indicator (n : ℕ) (A : ℕ → ℕ → ℚ) (nodes1 nodes2 : List ℕ)
    (M : List (ℕ × ℕ)) (H : BipartiteInput n A nodes1 nodes2)
    (HO : Oriented n A nodes1 nodes2) (hM : IsMatching n A M) :
    (nodes1.map (fun u => if M.any (fun e => decide (e.1 = u)) then (1 : ℚ) else 0)).sum
      = (M.length : ℚ) := by
  rw [sum_ite_len]
  apply congrArg
  have htails : (M.map Prod.fst).Nodup := by
    apply List.Nodup.map_on ?_ hM.1
    intro a ha b hb hab
    by_contra hne
    exact (hM.2.2 a ha b hb hne).1 hab
  have hlen := length_eq_of_nodup_mem_iff
    (nodes1.filter (fun u => M.any (fun e => decide (e.1 = u)))) (M.map Prod.fst)
    (H.nodup1.filter _) htails ?_
  · rw [hlen, List.length_map]
  · intro u
    simp only [List.mem_filter, List.any_eq_true, List.mem_map, decide_eq_true_eq]
    constructor
    · rintro ⟨-, e, he, hdec⟩
      exact ⟨e, he, hdec⟩
    · rintro ⟨e, he, hdec⟩
      refine ⟨?_, e, he, hdec⟩
      rw [← hdec]
      exact (matching_oriented n A nodes1 nodes2 M H HO hM e he).1

/-- Summing the matched-head indicator over partition 2 counts the matching. -/
lemma sum_head_indicator (n : ℕ) (A : ℕ → ℕ → ℚ) (nodes1 nodes2 : List ℕ)
    (M : List (ℕ × ℕ)) (H : BipartiteInput n A nodes1 nodes2)
    (HO : Oriented n A nodes1 nodes2) (hM : IsMatching n A M) :
    (nodes2.map (fun v => if M.any (fun e => decide (e.2 = v)) then (1 : ℚ) else 0)).sum
      = (M.length : ℚ) := by
  rw [sum_ite_len]
  apply congrArg
  have hheads : (M.map Prod.snd).Nodup := by
    apply List.Nodup.map_on ?_ hM.1
    intro a ha b hb hab
    by_contra hne
    exact (hM.2.2 a ha b hb hne).2.2.2 hab
  have hlen := length_eq_of_nodup_mem_iff
    (nodes2.filter (fun v => M.any (fun e => decide (e.2 = v)))) (M.map Prod.snd)
    (H.nodup2.filter _) hheads ?_
  · rw [hlen, List.length_map]
  · intro v
    simp only [List.mem_filter, List.any_eq_true, List.mem_map, decide_eq_true_eq]
    constructor
    · rintro ⟨-, e, he, hdec⟩
      exact ⟨e, he, hdec⟩
    · rintro ⟨e, he, hdec⟩
      refine ⟨?_, e, he, hdec⟩
      rw [← hdec]
      exact (matching_oriented n A nodes1 nodes2 M H HO hM e he).2

/-- Capacity compliance away from the return arc. -/
lemma withinCap_of_ne (n : ℕ) (f : ℕ × ℕ → ℚ) (a : ℕ × ℕ)
    (hne : a ≠ (sinkIdx n, sourceIdx n)) (hle : f a ≤ 1) : withinCap n f a := by
  unfold withinCap arcCap
  simp only [if_neg hne]
  exact hle

/-- The return arc is uncapacitated. -/
lemma withinCap_return (n : ℕ) (f : ℕ × ℕ → ℚ) :
    withinCap n f (sinkIdx n, sourceIdx n) := by
  unfold withinCap arcCap
  simp only [if_pos rfl]
  trivial

/-- The circulation induced by a matching is feasible. -/
lemma flowOf_feasible (n : ℕ) (A : ℕ → ℕ → ℚ) (nodes1 nodes2 : List ℕ)
    (M : List (ℕ × ℕ)) (H : BipartiteInput n A nodes1 nodes2)
    (HO : Oriented n A nodes1 nodes2) (hM : IsMatching n A M) :
    Feasible n A nodes1 nodes2 (flowOfMatching n M) := by
  have hof01 : ∀ (P : Prop) [Decidable P], (0 : ℚ) ≤ (if P then (1 : ℚ) else 0)
      ∧ (if P then (1 : ℚ) else 0) ≤ 1 := by
    intro P hP
    by_cases h : P
    · simp [h]
    · simp [h]
  constructor
  · intro a ha
    rcases (mem_arcList n A nodes1 nodes2 a).mp ha with ⟨h1, h2⟩ | h | ⟨h1, h2⟩ | h
    · obtain ⟨x, y⟩ := a
      simp only at h1 h2
      rw [h1]
      have hne : ((sourceIdx n, y) : ℕ × ℕ) ≠ (sinkIdx n, sourceIdx n) := by
        intro hcon
        have := congrArg Prod.fst hcon
        simp [sourceIdx, sinkIdx] at this
      rw [flowOf_source_arc n A M hM y]
      exact ⟨(hof01 _).1, withinCap_of_ne n _ _ hne
        (by rw [flowOf_source_arc n A M hM y]; exact (hof01 _).2)⟩
    · have hne : a ≠ (sinkIdx n, sourceIdx n) := by
        intro hcon
        have h1 := ((mem_triu_entries n A a).mp h).1
        rw [hcon] at h1
        simp [sinkIdx] at h1
      rw [flowOf_edge n A M hM a h]
      exact ⟨(hof01 _).1, withinCap_of_ne n _ _ hne
        (by rw [flowOf_edge n A M hM a h]; exact (hof01 _).2)⟩
    · obtain ⟨x, y⟩ := a
      simp only at h1 h2
      rw [h2]
      have hne : ((x, sinkIdx n) : ℕ × ℕ) ≠ (sinkIdx n, sourceIdx n) := by
        intro hcon
        have := congrArg Prod.snd hcon
        simp [sourceIdx, sinkIdx] at this
      rw [flowOf_sink_arc n A M hM x]
      exact ⟨(hof01 _).1, withinCap_of_ne n _ _ hne
        (by rw [flowOf_sink_arc n A M hM x]; exact (hof01 _).2)⟩
    · subst h
      rw [flowOf_return n A M hM]
      exact ⟨by positivity, withinCap_return n _⟩
  · intro v hv
    by_cases hvn : v < n
    · rw [inflow_node n A nodes1 nodes2 _ H v hvn,
        outflow_node n A nodes1 nodes2 _ H v hvn,
        sum_flowOf_filter n A M hM, sum_flowOf_filter n A M hM,
        matching_filter_tail n A M hM v, matching_filter_head n A M hM v]
      have htail_mem : M.any (fun e => decide (e.1 = v)) = true → v ∈ nodes1 := by
        intro hany
        rcases List.any_eq_true.mp hany with ⟨e, he, hdec⟩
        simp only [decide_eq_true_eq] at hdec
        rw [← hdec]
        exact (matching_oriented n A nodes1 nodes2 M H HO hM e he).1
      have hhead_mem : M.any (fun e => decide (e.2 = v)) = true → v ∈ nodes2 := by
        intro hany
        rcases List.any_eq_true.mp hany with ⟨e, he, hdec⟩
        simp only [decide_eq_true_eq] at hdec
        rw [← hdec]
        exact (matching_oriented n A nodes1 nodes2 M H HO hM e he).2
      by_cases hv1 : v ∈ nodes1
      · have hv2 : v ∉ nodes2 := H.disj v hv1
        have hnoh : ¬ M.any (fun e => decide (e.2 = v)) = true :=
          fun hany => hv2 (hhead_mem hany)
        rw [if_pos hv1, if_neg hv2, if_neg hnoh,
          flowOf_source_arc n A M hM v]
      · have hnot : ¬ M.any (fun e => decide (e.1 = v)) = true :=
          fun hany => hv1 (htail_mem hany)
        rw [if_neg hv1, if_neg hnot]
        by_cases hv2 : v ∈ nodes2
        · rw [if_pos hv2, flowOf_sink_arc n A M hM v]
        · have hnoh : ¬ M.any (fun e => decide (e.2 = v)) = true :=
            fun hany => hv2 (hhead_mem hany)
          rw [if_neg hv2, if_neg hnoh]
    · have hcase : v = sourceIdx n ∨ v = sinkIdx n := by
        simp only [sourceIdx, sinkIdx]
        omega
      rcases hcase with hceq | hceq
      · rw [hceq, inflow_source n A nodes1 nodes2 _ H, outflow_source n A nodes1 nodes2 _ H,
          flowOf_return n A M hM]
        have : nodes1.map (fun u => flowOfMatching n M (sourceIdx n, u))
            = nodes1.map (fun u =>
              if M.any (fun e => decide (e.1 = u)) then (1 : ℚ) else 0) :=
          List.map_eq_map_iff.mpr (fun u _ => flowOf_source_arc n A M hM u)
        rw [this, sum_tail_indicator n A nodes1 nodes2 M H HO hM]
      · rw [hceq, inflow_sink n A nodes1 nodes2 _ H, outflow_sink n A nodes1 nodes2 _ H,
          flowOf_return n A M hM]
        have : nodes2.map (fun v => flowOfMatching n M (v, sinkIdx n))
            = nodes2.map (fun v =>
              if M.any (fun e => decide (e.2 = v)) then (1 : ℚ) else 0) :=
          List.map_eq_map_iff.mpr (fun v _ => flowOf_sink_arc n A M hM v)
        rw [this, sum_head_indicator n A nodes1 nodes2 M H HO hM]

/-- Objective value of the induced circulation. -/
lemma flowOf_netCost (n : ℕ) (A : ℕ → ℕ → ℚ) (nodes1 nodes2 : List ℕ)
    (M : List (ℕ × ℕ)) (hM : IsMatching n A M) :
    netCost n A nodes1 nodes2 (flowOfMatching n M) = -((M.length : ℚ)) := by
  rw [netCost_eq, flowOf_return n A M hM]

/-- Core of claim C1: an optimal integral feasible flow selects a
maximum-cardinality matching, and its objective is minus that cardinality. -/
lemma optimal_flow_max_matching (n : ℕ) (A : ℕ → ℕ → ℚ) (nodes1 nodes2 : List ℕ)
    (f : ℕ × ℕ → ℚ) (H : BipartiteInput n A nodes1 nodes2)
    (HO : Oriented n A nodes1 nodes2) (hopt : OptimalFlow n A nodes1 nodes2 f)
    (hint : IntegralFlow f) :
    IsMatching n A (selectedArcs n A nodes1 nodes2 f)
      ∧ (∀ M, IsMatching n A M → M.length ≤ (selectedArcs n A nodes1 nodes2 f).length)
      ∧ netCost n A nodes1 nodes2 f
          = -(((selectedArcs n A nodes1 nodes2 f).length : ℚ)) := by
  have hf := hopt.1
  have hlen : (((selectedArcs n A nodes1 nodes2 f).length : ℚ))
      = f (sinkIdx n, sourceIdx n) :=
    (selected_length_eq_sum n A nodes1 nodes2 f H hf hint).trans
      (sum_edge_eq_return n A nodes1 nodes2 f H HO hf)
  refine ⟨selected_isMatching n A nodes1 nodes2 f H HO hf, ?_, ?_⟩
  · intro M hM
    have hcomp := hopt.2 (flowOfMatching n M)
      (flowOf_feasible n A nodes1 nodes2 M H HO hM)
    rw [netCost_eq, flowOf_netCost n A nodes1 nodes2 M hM] at hcomp
    have hle : (M.length : ℚ) ≤ ((selectedArcs n A nodes1 nodes2 f).length : ℚ) := by
      rw [hlen]
      linarith
    exact_mod_cast hle
  · rw [netCost_eq, hlen]

/-! ### The weighted matching program -/

/-- A solution selecting a single variable satisfies every clash constraint. -/
lemma nodeLoad_single (entries : List (ℕ × ℕ × ℚ)) (e0 : ℕ × ℕ) (v : ℕ) :
    nodeLoad entries (fun p => decide (p = e0)) v ≤ 1 := by
  unfold nodeLoad
  rw [sum_ite_len]
  have hle : (((wVars entries).filter
      (fun p => decide (p.1 = v) || decide (p.2 = v))).filter
        (fun p => decide (p = e0))).length ≤ 1 := by
    apply length_le_one_of_nodup_all_eq _
      (((List.nodup_dedup _).filter _).filter _)
    intro a ha b hb
    rcases List.mem_filter.mp ha with ⟨-, ha2⟩
    rcases List.mem_filter.mp hb with ⟨-, hb2⟩
    simp only [decide_eq_true_eq] at ha2 hb2
    rw [ha2, hb2]
  exact_mod_cast hle

/-- The variable keys of the weighted path instance. -/
lemma path_vars : wVars pathEntries = [(0, 1), (1, 0), (1, 2), (2, 1), (2, 3), (3, 2)] := by
  decide

/-- The objective of the weighted path instance, term by term. -/
lemma path_obj_eq (x : ℕ × ℕ → Bool) :
    wObj pathEntries x
      = (if x (0, 1) then (1 : ℚ) else 0) + (if x (1, 0) then (1 : ℚ) else 0)
        + (if x (1, 2) then (5 : ℚ) else 0) + (if x (2, 1) then (5 : ℚ) else 0)
        + (if x (2, 3) then (1 : ℚ) else 0) + (if x (3, 2) then (1 : ℚ) else 0) := by
  unfold wObj
  rw [path_vars]
  have w01 : wWeight pathEntries (0, 1) = 1 := rfl
  have w10 : wWeight pathEntries (1, 0) = 1 := rfl
  have w12 : wWeight pathEntries (1, 2) = 5 := rfl
  have w21 : wWeight pathEntries (2, 1) = 5 := rfl
  have w23 : wWeight pathEntries (2, 3) = 1 := rfl
  have w32 : wWeight pathEntries (3, 2) = 1 := rfl
  simp only [List.map_cons, List.map_nil, List.sum_cons, List.sum_nil,
    w01, w10, w12, w21, w23, w32]
  ring

/-- The clash constraint of node 1 in the weighted path instance. -/
lemma path_load1 (x : ℕ × ℕ → Bool) :
    nodeLoad pathEntries x 1
      = (if x (0, 1) then (1 : ℚ) else 0) + (if x (1, 0) then (1 : ℚ) else 0)
        + (if x (1, 2) then (1 : ℚ) else 0) + (if x (2, 1) then (1 : ℚ) else 0) := by
  unfold nodeLoad
  have hfil : (wVars pathEntries).filter
      (fun p => decide (p.1 = 1) || decide (p.2 = 1))
        = [(0, 1), (1, 0), (1, 2), (2, 1)] := by decide
  rw [hfil]
  simp only [List.map_cons, List.map_nil, List.sum_cons, List.sum_nil]
  ring

/-- The clash constraint of node 2 in the weighted path instance. -/
lemma path_load2 (x : ℕ × ℕ → Bool) :
    nodeLoad pathEntries x 2
      = (if x (1, 2) then (1 : ℚ) else 0) + (if x (2, 1) then (1 : ℚ) else 0)
        + (if x (2, 3) then (1 : ℚ) else 0) + (if x (3, 2) then (1 : ℚ) else 0) := by
  unfold nodeLoad
  have hfil : (wVars pathEntries).filter
      (fun p => decide (p.1 = 2) || decide (p.2 = 2))
        = [(1, 2), (2, 1), (2, 3), (3, 2)] := by decide
  rw [hfil]
  simp only [List.map_cons, List.map_nil, List.sum_cons, List.sum_nil]
  ring

/-- Indicator bounds. -/
lemma ite_unit_bounds (b : Bool) (w : ℚ) (hw : 0 ≤ w) :
    0 ≤ (if b then w else 0) ∧ (if b then w else 0) ≤ w := by
  cases b
  · simpa using hw
  · refine ⟨?_, ?_⟩ <;> simp [hw]

/-- No feasible solution of the weighted path program exceeds objective 5. -/
lemma path_obj_le (x : ℕ × ℕ → Bool) (hx : wFeasible pathEntries x) :
    wObj pathEntries x ≤ 5 := by
  have h1 := hx 1
  have h2 := hx 2
  rw [path_load1] at h1
  rw [path_load2] at h2
  rw [path_obj_eq]
  have b01 := ite_unit_bounds (x (0, 1)) 1 (by norm_num)
  have b10 := ite_unit_bounds (x (1, 0)) 1 (by norm_num)
  have b12 := ite_unit_bounds (x (1, 2)) 1 (by norm_num)
  have b21 := ite_unit_bounds (x (2, 1)) 1 (by norm_num)
  have b23 := ite_unit_bounds (x (2, 3)) 1 (by norm_num)
  have b32 := ite_unit_bounds (x (3, 2)) 1 (by norm_num)
  have s12 : (if x (1, 2) then (5 : ℚ) else 0) = 5 * (if x (1, 2) then (1 : ℚ) else 0) := by
    cases hx12 : x (1, 2) <;> simp
  have s21 : (if x (2, 1) then (5 : ℚ) else 0) = 5 * (if x (2, 1) then (1 : ℚ) else 0) := by
    cases hx21 : x (2, 1) <;> simp
  rw [s12, s21]
  rcases b01 with ⟨b011, b012⟩
  rcases b10 with ⟨b101, b102⟩
  rcases b12 with ⟨b121, b122⟩
  rcases b21 with ⟨b211, b212⟩
  rcases b23 with ⟨b231, b232⟩
  rcases b32 with ⟨b321, b322⟩
  linarith

/-- The single-edge solution `x (1,2) = 1` is feasible. -/
lemma pathOpt_feasible : wFeasible pathEntries pathOpt := by
  intro v
  exact nodeLoad_single pathEntries (1, 2) v

/-- The single-edge solution has objective 5. -/
lemma pathOpt_obj : wObj pathEntries pathOpt = 5 := by
  rw [path_obj_eq]
  norm_num [pathOpt]

/-- Core of claim C7: every optimal solution selects exactly one orientation
of the middle edge, and its objective is 5. -/
lemma path_optimum_core (x : ℕ × ℕ → Bool) (hopt : wOptimal pathEntries x) :
    (wSelected pathEntries x = [(1, 2)] ∨ wSelected pathEntries x = [(2, 1)])
      ∧ wObj pathEntries x = 5 := by
  have hge : (5 : ℚ) ≤ wObj pathEntries x := by
    have := hopt.2 pathOpt pathOpt_feasible
    rw [pathOpt_obj] at this
    exact this
  have hle := path_obj_le x hopt.1
  have heq : wObj pathEntries x = 5 := le_antisymm hle hge
  refine ⟨?_, heq⟩
  have h1 := hopt.1 1
  have h2 := hopt.1 2
  rw [path_load1] at h1
  rw [path_load2] at h2
  rw [path_obj_eq] at heq
  unfold wSelected
  rw [path_vars]
  cases hx01 : x (0, 1) <;> cases hx10 : x (1, 0) <;> cases hx12 : x (1, 2) <;>
    cases hx21 : x (2, 1) <;> cases hx23 : x (2, 3) <;> cases hx32 : x (3, 2) <;>
    first
      | (norm_num [hx01, hx10, hx12, hx21, hx23, hx32] at heq h1 h2; done)
      | (left; simp [List.filter_cons, hx01, hx10, hx12, hx21, hx23, hx32]; done)
      | (right; simp [List.filter_cons, hx01, hx10, hx12, hx21, hx23, hx32]; done)

/-! ### Positional structure of the arrays -/

lemma capacity_length (m : ℕ) : (capacity m).length = m := by
  simp [capacity]

lemma cost_length (m : ℕ) : (cost m).length = m := by
  simp [cost]

lemma capacity_get_lt (k i : ℕ) (h : i < k) : (capacity (k + 1))[i]? = some (some 1) := by
  rw [capacity_eq, List.getElem?_append_left (by simpa using h),
    List.getElem?_replicate, if_pos h]

lemma capacity_get_last (k : ℕ) : (capacity (k + 1))[k]? = some none := by
  rw [capacity_eq, List.getElem?_append_right (by simp)]
  simp

lemma cost_get_lt (k i : ℕ) (h : i < k) : (cost (k + 1))[i]? = some 0 := by
  rw [cost_eq, List.getElem?_append_left (by simpa using h),
    List.getElem?_replicate, if_pos h]

lemma cost_get_last (k : ℕ) : (cost (k + 1))[k]? = some (-1) := by
  rw [cost_eq, List.getElem?_append_right (by simp)]
  simp

lemma from_arc_last (n : ℕ) (A : ℕ → ℕ → ℚ) (nodes1 nodes2 : List ℕ) :
    (from_arc n A nodes1 nodes2)[nodes1.length + (triu_entries n A).length
      + nodes2.length]? = some (sinkIdx n) := by
  unfold from_arc
  have hlen : (nodes1.map (fun _ => sourceIdx n) ++ (triu_entries n A).map Prod.fst
      ++ nodes2).length = nodes1.length + (triu_entries n A).length + nodes2.length := by
    simp
    omega
  rw [List.getElem?_append_right (by rw [hlen]), hlen, Nat.sub_self]
  rfl

lemma to_arc_last (n : ℕ) (A : ℕ → ℕ → ℚ) (nodes1 nodes2 : List ℕ) :
    (to_arc n A nodes1 nodes2)[nodes1.length + (triu_entries n A).length
      + nodes2.length]? = some (sourceIdx n) := by
  unfold to_arc
  have hlen : (nodes1 ++ (triu_entries n A).map Prod.snd
      ++ nodes2.map (fun _ => sinkIdx n)).length
        = nodes1.length + (triu_entries n A).length + nodes2.length := by
    simp
    omega
  rw [List.getElem?_append_right (by rw [hlen]), hlen, Nat.sub_self]
  rfl

lemma from_arc_edge (n : ℕ) (A : ℕ → ℕ → ℚ) (nodes1 nodes2 : List ℕ) (k : ℕ)
    (hk : k < (triu_entries n A).length) :
    (from_arc n A nodes1 nodes2)[nodes1.length + k]?
      = ((triu_entries n A)[k]?).map Prod.fst := by
  unfold from_arc
  rw [List.append_assoc, List.append_assoc,
    List.getElem?_append_right (by simp),
    List.getElem?_append_left (by simpa using hk)]
  simp [List.getElem?_map]

lemma to_arc_edge (n : ℕ) (A : ℕ → ℕ → ℚ) (nodes1 nodes2 : List ℕ) (k : ℕ)
    (hk : k < (triu_entries n A).length) :
    (to_arc n A nodes1 nodes2)[nodes1.length + k]?
      = ((triu_entries n A)[k]?).map Prod.snd := by
  unfold to_arc
  rw [List.append_assoc, List.append_assoc,
    List.getElem?_append_right (by simp),
    List.getElem?_append_left (by simpa using hk)]
  simp [List.getElem?_map]

/-! ### Cores of the remaining claims -/

/-- Core of claim C8: every merged output row is an input row. -/
lemma pandas_rows_sub {R : Type} (frame : List (ℕ × ℕ × R)) (fl : ℕ × ℕ → ℚ)
    (c : ℕ) (r : ℕ × ℕ × R)
    (hr : r ∈ (maximum_bipartite_matching_pandas frame fl c).1) : r ∈ frame := by
  unfold maximum_bipartite_matching_pandas at hr
  simp only at hr
  rcases List.mem_flatMap.mp hr with ⟨rc, hrc, hmem⟩
  rcases List.mem_map.mp hmem with ⟨s, -, rfl⟩
  obtain ⟨r1, rc2⟩ := rc
  exact (List.of_mem_zip hrc).1

/-- Core of claim C10: an empty selection makes the extraction fail. -/
lemma wResult_error (entries : List (ℕ × ℕ × ℚ)) (x : ℕ × ℕ → Bool)
    (hall : ∀ e ∈ wVars entries, x e = false) :
    wResult entries x = Except.error "not enough values to unpack" := by
  unfold wResult
  have hsel : wSelected entries x = [] := by
    apply List.filter_eq_nil_iff.mpr
    intro e he
    simp [hall e he]
  rw [hsel]

/-! ### Concrete instances -/

/-- The all-zero flow is feasible on every constructed network. -/
lemma zero_flow_feasible (n : ℕ) (A : ℕ → ℕ → ℚ) (nodes1 nodes2 : List ℕ) :
    Feasible n A nodes1 nodes2 (fun _ => 0) := by
  constructor
  · intro a ha
    refine ⟨le_refl 0, ?_⟩
    by_cases h : a = (sinkIdx n, sourceIdx n)
    · rw [h]
      exact withinCap_return n _
    · exact withinCap_of_ne n _ a h (by norm_num)
  · intro v hv
    unfold inflow outflow
    rw [List.sum_eq_zero (by
        intro x hx
        rcases List.mem_map.mp hx with ⟨y, hy, hxy⟩
        exact hxy.symm),
      List.sum_eq_zero (by
        intro x hx
        rcases List.mem_map.mp hx with ⟨y, hy, hxy⟩
        exact hxy.symm)]

/-- The all-zero flow is integral. -/
lemma zero_flow_integral : IntegralFlow (fun _ => (0 : ℚ)) := by
  intro a
  exact ⟨0, by norm_num⟩

lemma cx2A_symm : ∀ i j, cx2A i j = cx2A j i := by
  intro i j
  unfold cx2A
  have hiff : ((i = 0 ∧ j = 1) ∨ (i = 1 ∧ j = 0)) ↔ ((j = 0 ∧ i = 1) ∨ (j = 1 ∧ i = 0)) := by
    tauto
  by_cases h : (i = 0 ∧ j = 1) ∨ (i = 1 ∧ j = 0)
  · rw [if_pos h, if_pos (hiff.mp h)]
  · rw [if_neg h, if_neg (fun hc => h (hiff.mpr hc))]

lemma cx2A_loopfree : ∀ i, cx2A i i = 0 := by
  intro i
  unfold cx2A
  rw [if_neg]
  omega

lemma cx2_input : BipartiteInput 2 cx2A [1] [0] := by
  refine ⟨cx2A_symm, cx2A_loopfree, ?_, ?_, ?_, ?_, ?_, ?_⟩
  · intro u hu
    rw [List.mem_singleton] at hu
    omega
  · intro v hv
    rw [List.mem_singleton] at hv
    omega
  · intro u hu
    rw [List.mem_singleton] at hu
    subst hu
    decide
  · decide
  · decide
  · intro i j hi hj
    interval_cases i <;> interval_cases j <;> revert hi hj <;> decide

lemma cx2_arcs : arcList 2 cx2A [1] [0] = [(2, 1), (0, 1), (0, 3), (3, 2)] := by
  decide

lemma cx2_matching : IsMatching 2 cx2A [(0, 1)] := by
  refine ⟨by decide, ?_, ?_⟩
  · intro e he
    rw [List.mem_singleton] at he
    subst he
    refine ⟨by norm_num, by norm_num, by decide⟩
  · intro e1 h1 e2 h2 hne
    rw [List.mem_singleton] at h1 h2
    exact absurd (h1.trans h2.symm) hne

lemma cx2_selected : selectedArcs 2 cx2A [1] [0] (fun _ => 0) = [] := by
  unfold selectedArcs
  rw [cx2_arcs]
  have hmask : ∀ a : ℕ × ℕ, selectMask 2 (fun _ => 0) a = false := by
    intro a
    simp [selectMask]
  simp [List.filter_cons, hmask]

lemma cx2_zero_optimal : OptimalFlow 2 cx2A [1] [0] (fun _ => 0) := by
  refine ⟨zero_flow_feasible 2 cx2A [1] [0], ?_⟩
  intro g hg
  rw [netCost_eq, netCost_eq]
  have hcons1 := hg.2 1 (by norm_num)
  have hcons0 := hg.2 0 (by norm_num)
  have hcons3 := hg.2 3 (by norm_num)
  rw [cx2_arcs] at hcons1 hcons0 hcons3
  unfold inflow outflow at hcons1 hcons0 hcons3
  simp [List.filter_cons] at hcons1 hcons0 hcons3
  have hn21 : (0 : ℚ) ≤ g (2, 1) := (hg.1 (2, 1) (by rw [cx2_arcs]; decide)).1
  have hn01 : (0 : ℚ) ≤ g (0, 1) := (hg.1 (0, 1) (by rw [cx2_arcs]; decide)).1
  have hn03 : (0 : ℚ) ≤ g (0, 3) := (hg.1 (0, 3) (by rw [cx2_arcs]; decide)).1
  simp [sourceIdx, sinkIdx]
  linarith

lemma cx4A_symm : ∀ i j, cx4A i j = cx4A j i := by
  intro i j
  unfold cx4A
  have hiff : (((i, j) : ℕ × ℕ) ∈ [((0:ℕ),(1:ℕ)), (1,0), (1,2), (2,1), (2,3), (3,2)])
      ↔ (((j, i) : ℕ × ℕ) ∈ [((0:ℕ),(1:ℕ)), (1,0), (1,2), (2,1), (2,3), (3,2)]) := by
    simp only [List.mem_cons, List.mem_singleton, Prod.mk.injEq, List.not_mem_nil,
      or_false]
    tauto
  by_cases h : ((i, j) : ℕ × ℕ) ∈ [((0:ℕ),(1:ℕ)), (1,0), (1,2), (2,1), (2,3), (3,2)]
  · rw [if_pos h, if_pos (hiff.mp h)]
  · rw [if_neg h, if_neg (fun hc => h (hiff.mpr hc))]

lemma cx4A_loopfree : ∀ i, cx4A i i = 0 := by
  intro i
  unfold cx4A
  rw [if_neg]
  simp only [List.mem_cons, List.mem_singleton, Prod.mk.injEq, List.not_mem_nil,
    or_false]
  omega

lemma cx4_input : BipartiteInput 4 cx4A [0, 2] [1, 3] := by
  refine ⟨cx4A_symm, cx4A_loopfree, ?_, ?_, ?_, ?_, ?_, ?_⟩
  · intro u hu
    rcases List.mem_cons.mp hu with h | h
    · omega
    · rw [List.mem_singleton] at h
      omega
  · intro v hv
    rcases List.mem_cons.mp hv with h | h
    · omega
    · rw [List.mem_singleton] at h
      omega
  · intro u hu
    rcases List.mem_cons.mp hu with h | h
    · subst h
      decide
    · rw [List.mem_singleton] at h
      subst h
      decide
  · decide
  · decide
  · intro i j hi hj
    interval_cases i <;> interval_cases j <;> revert hi hj <;> decide

lemma cx4_arcs : arcList 4 cx4A [0, 2] [1, 3]
    = [(4, 0), (4, 2), (0, 1), (1, 2), (2, 3), (1, 5), (3, 5), (5, 4)] := by
  decide

lemma cx4_feasible : Feasible 4 cx4A [0, 2] [1, 3] cx4flow := by
  constructor
  · intro a ha
    rw [cx4_arcs] at ha
    fin_cases ha <;>
      refine ⟨by norm_num [cx4flow], ?_⟩ <;>
      first
        | exact withinCap_return 4 _
        | exact withinCap_of_ne 4 _ _ (by decide) (by norm_num [cx4flow])
  · intro v hv
    unfold inflow outflow
    rw [cx4_arcs]
    interval_cases v <;> simp [List.filter_cons] <;> norm_num [cx4flow]

lemma cx4_selected : selectedArcs 4 cx4A [0, 2] [1, 3] cx4flow
    = [(0, 1), (1, 2), (2, 3)] := by
  unfold selectedArcs
  rw [cx4_arcs]
  have hmask : ∀ a : ℕ × ℕ,
      selectMask 4 cx4flow a
        = (decide ((1 : ℚ) / 2 < cx4flow a) && decide (a.1 ≠ 4) && decide (a.2 ≠ 5)) := by
    intro a
    rfl
  simp only [List.filter_cons, List.filter_nil, hmask]
  norm_num [cx4flow]

lemma wbA_symm : ∀ i j, wbA i j = wbA j i := by
  intro i j
  unfold wbA
  have hiff : (((i, j) : ℕ × ℕ) ∈ [((0:ℕ),(2:ℕ)), (2,0), (0,3), (3,0), (1,2), (2,1)])
      ↔ (((j, i) : ℕ × ℕ) ∈ [((0:ℕ),(2:ℕ)), (2,0), (0,3), (3,0), (1,2), (2,1)]) := by
    simp only [List.mem_cons, List.mem_singleton, Prod.mk.injEq, List.not_mem_nil,
      or_false]
    tauto
  by_cases h : ((i, j) : ℕ × ℕ) ∈ [((0:ℕ),(2:ℕ)), (2,0), (0,3), (3,0), (1,2), (2,1)]
  · rw [if_pos h, if_pos (hiff.mp h)]
  · rw [if_neg h, if_neg (fun hc => h (hiff.mpr hc))]

lemma wbA_loopfree : ∀ i, wbA i i = 0 := by
  intro i
  unfold wbA
  rw [if_neg]
  simp only [List.mem_cons, List.mem_singleton, Prod.mk.injEq, List.not_mem_nil,
    or_false]
  omega

lemma wb_input : BipartiteInput 4 wbA [0, 1] [2, 3] := by
  refine ⟨wbA_symm, wbA_loopfree, ?_, ?_, ?_, ?_, ?_, ?_⟩
  · intro u hu
    rcases List.mem_cons.mp hu with h | h
    · omega
    · rw [List.mem_singleton] at h
      omega
  · intro v hv
    rcases List.mem_cons.mp hv with h | h
    · omega
    · rw [List.mem_singleton] at h
      omega
  · intro u hu
    rcases List.mem_cons.mp hu with h | h
    · subst h
      decide
    · rw [List.mem_singleton] at h
      subst h
      decide
  · decide
  · decide
  · intro i j hi hj
    interval_cases i <;> interval_cases j <;> revert hi hj <;> decide

lemma wb_oriented : Oriented 4 wbA [0, 1] [2, 3] := by
  intro i j hij hj
  have hi : i < 4 := lt_trans hij hj
  interval_cases i <;> interval_cases j <;> revert hij <;> decide

lemma wb_triu : triu_entries 4 wbA = [(0, 2), (0, 3), (1, 2)] := by
  decide

lemma wb_arcs : arcList 4 wbA [0, 1] [2, 3]
    = [(4, 0), (4, 1), (0, 2), (0, 3), (1, 2), (2, 5), (3, 5), (5, 4)] := by
  decide

lemma wb_feasible : Feasible 4 wbA [0, 1] [2, 3] wbFlow := by
  constructor
  · intro a ha
    rw [wb_arcs] at ha
    fin_cases ha <;>
      refine ⟨by norm_num [wbFlow], ?_⟩ <;>
      first
        | exact withinCap_return 4 _
        | exact withinCap_of_ne 4 _ _ (by decide) (by norm_num [wbFlow])
  · intro v hv
    unfold inflow outflow
    rw [wb_arcs]
    interval_cases v <;> simp [List.filter_cons] <;> norm_num [wbFlow]

lemma wb_integral : IntegralFlow wbFlow := by
  intro a
  unfold wbFlow
  by_cases h1 : a = (5, 4)
  · exact ⟨2, by rw [if_pos h1]; norm_num⟩
  · by_cases h2 : a ∈ [((4:ℕ),(0:ℕ)), (4,1), (0,3), (1,2), (2,5), (3,5)]
    · exact ⟨1, by rw [if_neg h1, if_pos h2]; norm_num⟩
    · exact ⟨0, by rw [if_neg h1, if_neg h2]; norm_num⟩

lemma wb_optimal : OptimalFlow 4 wbA [0, 1] [2, 3] wbFlow := by
  refine ⟨wb_feasible, ?_⟩
  intro g hg
  rw [netCost_eq, netCost_eq]
  have hcons := hg.2 4 (by norm_num)
  rw [wb_arcs] at hcons
  unfold inflow outflow at hcons
  simp [List.filter_cons] at hcons
  have hle0 : g (4, 0) ≤ 1 := flow_le_one 4 wbA [0, 1] [2, 3] g hg (4, 0)
    (by rw [wb_arcs]; decide) (by decide)
  have hle1 : g (4, 1) ≤ 1 := flow_le_one 4 wbA [0, 1] [2, 3] g hg (4, 1)
    (by rw [wb_arcs]; decide) (by decide)
  have hval : wbFlow (5, 4) = 2 := by norm_num [wbFlow]
  simp [sourceIdx, sinkIdx] at hval ⊢
  rw [hval]
  linarith

lemma wb_selected : selectedArcs 4 wbA [0, 1] [2, 3] wbFlow = [(0, 3), (1, 2)] := by
  unfold selectedArcs
  rw [wb_arcs]
  have hmask : ∀ a : ℕ × ℕ,
      selectMask 4 wbFlow a
        = (decide ((1 : ℚ) / 2 < wbFlow a) && decide (a.1 ≠ 4) && decide (a.2 ≠ 5)) := by
    intro a
    rfl
  simp only [List.filter_cons, List.filter_nil, hmask]
  norm_num [wbFlow]

lemma pd_row : pdRow pdFrame = [0] := by decide

lemma pd_col : pdCol pdFrame = [1] := by decide

lemma pd_degree : pdDegree pdFrame = 2 := by decide

lemma pd_nodes1 : sortedUnique (pdRow pdFrame) = [0] := by decide

lemma pd_nodes2 : sortedUnique (pdCol pdFrame) = [1] := by decide

lemma pd_arcs : arcList 2 (pdAdj pdFrame) [0] [1] = [(2, 0), (0, 1), (1, 3), (3, 2)] := by
  decide

lemma pd_selected : selectedArcs 2 (pdAdj pdFrame) [0] [1] pdFlow = [(0, 1)] := by
  unfold selectedArcs
  rw [pd_arcs]
  have hmask : ∀ a : ℕ × ℕ,
      selectMask 2 pdFlow a
        = (decide ((1 : ℚ) / 2 < pdFlow a) && decide (a.1 ≠ 2) && decide (a.2 ≠ 3)) := by
    intro a
    rfl
  simp only [List.filter_cons, List.filter_nil, hmask]
  norm_num [pdFlow]

lemma pd_matrix_01 : matchingMatrix 2 (pdAdj pdFrame) [0] [1] pdFlow 0 1 = 1 := by
  unfold matchingMatrix
  rw [pd_selected]
  norm_num [List.countP_cons, List.countP_nil]

lemma pd_mem_output :
    ((10, 20, ()) : ℕ × ℕ × Unit) ∈ (maximum_bipartite_matching_pandas pdFrame pdFlow 0).1 := by
  unfold maximum_bipartite_matching_pandas
  simp only
  apply List.mem_flatMap.mpr
  refine ⟨(((10, 20, ()) : ℕ × ℕ × Unit), ((0 : ℕ), (1 : ℕ))), ?_, ?_⟩
  · rw [pd_row, pd_col]
    decide
  · apply List.mem_map.mpr
    refine ⟨(0, 1), ?_, rfl⟩
    apply List.mem_filter.mpr
    refine ⟨?_, by decide⟩
    apply List.mem_flatMap.mpr
    refine ⟨0, by rw [pd_degree]; decide, ?_⟩
    apply List.mem_map.mpr
    refine ⟨1, ?_, rfl⟩
    apply List.mem_filter.mpr
    refine ⟨by rw [pd_degree]; decide, ?_⟩
    have hM : (maximum_bipartite_matching_scipy (pdDegree pdFrame) (pdAdj pdFrame)
        (sortedUnique (pdRow pdFrame)) (sortedUnique (pdCol pdFrame)) pdFlow 0).1 0 1
          = 1 := by
      unfold maximum_bipartite_matching_scipy
      simp only
      rw [pd_degree, pd_nodes1, pd_nodes2]
      exact pd_matrix_01
    rw [hM]
    norm_num

/-! ### The claims -/

/-- Claim C1 (counterexample): with the single edge between nodes 0 and 1 but
`nodes1 = [1]`, `nodes2 = [0]` (a symmetric, loop-free bipartite adjacency with
disjoint partitions whose edge joins N1 to N2), the all-zero flow is an
optimal integral feasible flow for the constructed network, yet its selected
edge set is empty while the graph has a matching of cardinality 1, and the
optimal objective is 0, not minus the maximum cardinality. -/
theorem c1_counterexample :
    BipartiteInput 2 cx2A [1] [0]
      ∧ OptimalFlow 2 cx2A [1] [0] (fun _ => 0)
      ∧ IntegralFlow (fun _ => (0 : ℚ))
      ∧ IsMatching 2 cx2A [(0, 1)]
      ∧ selectedArcs 2 cx2A [1] [0] (fun _ => 0) = []
      ∧ netCost 2 cx2A [1] [0] (fun _ => 0) = 0
      ∧ ¬ (∀ M, IsMatching 2 cx2A M
            → M.length ≤ (selectedArcs 2 cx2A [1] [0] (fun _ => 0)).length) := by
  refine ⟨cx2_input, cx2_zero_optimal, zero_flow_integral, cx2_matching, cx2_selected,
    ?_, ?_⟩
  · rw [netCost_eq]
    norm_num
  · intro hcon
    have := hcon [(0, 1)] cx2_matching
    rw [cx2_selected] at this
    simp at this

/-- Claim C1 (amended): for a symmetric, loop-free bipartite adjacency with
disjoint partitions whose edges all join N1 to N2, assuming additionally that
every edge's lower-indexed endpoint lies in N1 (the orientation produced by
the upper-triangular extraction; automatic when all N1 indices precede all N2
indices), if the min-cost-flow solve returns an optimal integral feasible
flow then the selected edges form a maximum-cardinality matching of the input
graph and the optimal objective equals minus that cardinality. -/
theorem c1_amended_max_matching (n : ℕ) (A : ℕ → ℕ → ℚ) (nodes1 nodes2 : List ℕ)
    (f : ℕ × ℕ → ℚ) (H : BipartiteInput n A nodes1 nodes2)
    (HO : Oriented n A nodes1 nodes2) (hopt : OptimalFlow n A nodes1 nodes2 f)
    (hint : IntegralFlow f) :
    IsMatching n A (selectedArcs n A nodes1 nodes2 f)
      ∧ (∀ M, IsMatching n A M
          → M.length ≤ (selectedArcs n A nodes1 nodes2 f).length)
      ∧ netCost n A nodes1 nodes2 f
          = -(((selectedArcs n A nodes1 nodes2 f).length : ℚ)) :=
  optimal_flow_max_matching n A nodes1 nodes2 f H HO hopt hint

/-- Witness for the amended claim C1: the spec's concrete bipartite scenario
(`N1 = [0,1]`, `N2 = [2,3]`, edges (0,2), (0,3), (1,2)) with the integral
optimal flow matching (0,3) and (1,2). -/
theorem c1_witness :
    BipartiteInput 4 wbA [0, 1] [2, 3] ∧ Oriented 4 wbA [0, 1] [2, 3]
      ∧ OptimalFlow 4 wbA [0, 1] [2, 3] wbFlow ∧ IntegralFlow wbFlow
      ∧ IsMatching 4 wbA (selectedArcs 4 wbA [0, 1] [2, 3] wbFlow)
      ∧ (∀ M, IsMatching 4 wbA M
          → M.length ≤ (selectedArcs 4 wbA [0, 1] [2, 3] wbFlow).length)
      ∧ netCost 4 wbA [0, 1] [2, 3] wbFlow
          = -(((selectedArcs 4 wbA [0, 1] [2, 3] wbFlow).length : ℚ)) := by
  have h := c1_amended_max_matching 4 wbA [0, 1] [2, 3] wbFlow wb_input wb_oriented
    wb_optimal wb_integral
  exact ⟨wb_input, wb_oriented, wb_optimal, wb_integral, h.1, h.2.1, h.2.2⟩

/-- Claim C2 (counterexample): with `nodes1 = [1]`, `nodes2 = [0]` and the
single edge between 0 and 1, the arc added for that edge is `(0, 1)` (at
position `|N1| + 0 = 1` of the arc arrays): its tail 0 lies in `nodes2`, not
in `nodes1`, contradicting the claimed N1-endpoint-first orientation. -/
theorem c2_counterexample :
    BipartiteInput 2 cx2A [1] [0]
      ∧ triu_entries 2 cx2A = [(0, 1)]
      ∧ (from_arc 2 cx2A [1] [0])[1]? = some 0
      ∧ (to_arc 2 cx2A [1] [0])[1]? = some 1
      ∧ (0 : ℕ) ∈ ([0] : List ℕ) ∧ (0 : ℕ) ∉ ([1] : List ℕ)
      ∧ (1 : ℕ) ∈ ([1] : List ℕ) :=
  ⟨cx2_input, by decide, by decide, by decide, by decide, by decide, by decide⟩

/-- Claim C2 (amended): for every input partition pair — oriented or not —
the arc added for the k-th upper-triangular edge entry occupies position
`|N1| + k` of the arc arrays and is oriented lower index → higher index with
capacity 1 and cost 0; only under the additional assumption that every edge's
lower-indexed endpoint lies in N1 is its tail the N1 endpoint and its head
the N2 endpoint. -/
theorem c2_amended_arc_orientation (n : ℕ) (A : ℕ → ℕ → ℚ) (nodes1 nodes2 : List ℕ)
    (H : BipartiteInput n A nodes1 nodes2)
    (k : ℕ) (e : ℕ × ℕ) (he : (triu_entries n A)[k]? = some e) :
    (from_arc n A nodes1 nodes2)[nodes1.length + k]? = some e.1
      ∧ (to_arc n A nodes1 nodes2)[nodes1.length + k]? = some e.2
      ∧ e.1 < e.2 ∧ A e.1 e.2 ≠ 0
      ∧ (capacity (from_arc n A nodes1 nodes2).length)[nodes1.length + k]?
          = some (some 1)
      ∧ (cost (from_arc n A nodes1 nodes2).length)[nodes1.length + k]? = some 0
      ∧ (Oriented n A nodes1 nodes2 → e.1 ∈ nodes1 ∧ e.2 ∈ nodes2) := by
  have hk : k < (triu_entries n A).length := by
    by_contra hcon
    rw [List.getElem?_eq_none (by omega)] at he
    exact Option.noConfusion he
  have hmem : e ∈ triu_entries n A := by
    have := List.getElem?_eq_some.mp he
    rcases this with ⟨hlt, hget⟩
    rw [← hget]
    exact List.getElem_mem _
  refine ⟨?_, ?_, triu_lt n A H.loopfree e hmem,
    ((mem_triu_entries n A e).mp hmem).2.2.2, ?_, ?_,
    fun HO => triu_oriented n A nodes1 nodes2 H HO e hmem⟩
  · rw [from_arc_edge n A nodes1 nodes2 k hk, he]
    rfl
  · rw [to_arc_edge n A nodes1 nodes2 k hk, he]
    rfl
  · rw [from_arc_length]
    exact capacity_get_lt _ _ (by omega)
  · rw [from_arc_length]
    exact cost_get_lt _ _ (by omega)

/-- Witness for the amended claim C2, at two concrete instances. On the
oriented bipartite scenario the first edge arc is `(0, 2)` at position 2 with
capacity 1 and cost 0 and, the orientation hypothesis holding there, its tail
is the N1 endpoint. On the misoriented instance `N1 = [1]`, `N2 = [0]` the
theorem still applies: the arc for edge 0–1 is `(0, 1)` at position 1 with
capacity 1 and cost 0, oriented by index and not by partition. -/
theorem c2_witness :
    ((from_arc 4 wbA [0, 1] [2, 3])[([0, 1] : List ℕ).length + 0]?
          = some ((0, 2) : ℕ × ℕ).1
      ∧ (to_arc 4 wbA [0, 1] [2, 3])[([0, 1] : List ℕ).length + 0]?
          = some ((0, 2) : ℕ × ℕ).2
      ∧ ((0, 2) : ℕ × ℕ).1 < ((0, 2) : ℕ × ℕ).2 ∧ wbA 0 2 ≠ 0
      ∧ (capacity (from_arc 4 wbA [0, 1] [2, 3]).length)[([0, 1] : List ℕ).length + 0]?
          = some (some 1)
      ∧ (cost (from_arc 4 wbA [0, 1] [2, 3]).length)[([0, 1] : List ℕ).length + 0]?
          = some 0
      ∧ ((0, 2) : ℕ × ℕ).1 ∈ ([0, 1] : List ℕ) ∧ ((0, 2) : ℕ × ℕ).2 ∈ ([2, 3] : List ℕ))
      ∧ ((from_arc 2 cx2A [1] [0])[([1] : List ℕ).length + 0]?
          = some ((0, 1) : ℕ × ℕ).1
      ∧ (to_arc 2 cx2A [1] [0])[([1] : List ℕ).length + 0]?
          = some ((0, 1) : ℕ × ℕ).2
      ∧ ((0, 1) : ℕ × ℕ).1 < ((0, 1) : ℕ × ℕ).2 ∧ cx2A 0 1 ≠ 0
      ∧ (capacity (from_arc 2 cx2A [1] [0]).length)[([1] : List ℕ).length + 0]?
          = some (some 1)
      ∧ (cost (from_arc 2 cx2A [1] [0]).length)[([1] : List ℕ).length + 0]?
          = some 0) := by
  have h1 := c2_amended_arc_orientation 4 wbA [0, 1] [2, 3] wb_input 0 (0, 2) (by decide)
  have h2 := c2_amended_arc_orientation 2 cx2A [1] [0] cx2_input 0 (0, 1) (by decide)
  exact ⟨⟨h1.1, h1.2.1, h1.2.2.1, h1.2.2.2.1, h1.2.2.2.2.1, h1.2.2.2.2.2.1,
      h1.2.2.2.2.2.2 wb_oriented⟩,
    h2.1, h2.2.1, h2.2.2.1, h2.2.2.2.1, h2.2.2.2.2.1, h2.2.2.2.2.2.1⟩

/-- Claim C3 (counterexample): on the 4-node path with partitions
`N1 = [0, 2]`, `N2 = [1, 3]` (a valid bipartite instance: every edge joins N1
to N2), the exhibited feasible flow makes the interpreter select the arcs
(0,1), (1,2), (2,3), so node 1 is incident to two selected edges — the output
is not a valid matching. -/
theorem c3_counterexample :
    BipartiteInput 4 cx4A [0, 2] [1, 3]
      ∧ Feasible 4 cx4A [0, 2] [1, 3] cx4flow
      ∧ selDegree (selectedArcs 4 cx4A [0, 2] [1, 3] cx4flow) 1 = 2 := by
  refine ⟨cx4_input, cx4_feasible, ?_⟩
  rw [cx4_selected]
  decide

/-- Claim C3 (amended): for a bipartite instance whose edges are oriented
N1-endpoint-first by the upper-triangular extraction, every feasible flow
(fractional ones included) yields a selected arc set in which every node has
at most one incident selected edge — a valid matching. -/
theorem c3_amended_validity (n : ℕ) (A : ℕ → ℕ → ℚ) (nodes1 nodes2 : List ℕ)
    (f : ℕ × ℕ → ℚ) (H : BipartiteInput n A nodes1 nodes2)
    (HO : Oriented n A nodes1 nodes2) (hf : Feasible n A nodes1 nodes2 f) :
    ∀ v, selDegree (selectedArcs n A nodes1 nodes2 f) v ≤ 1 :=
  selected_degree_le_one n A nodes1 nodes2 f H HO hf

/-- Witness for the amended claim C3 at the concrete bipartite scenario. -/
theorem c3_witness :
    BipartiteInput 4 wbA [0, 1] [2, 3] ∧ Oriented 4 wbA [0, 1] [2, 3]
      ∧ Feasible 4 wbA [0, 1] [2, 3] wbFlow
      ∧ selDegree (selectedArcs 4 wbA [0, 1] [2, 3] wbFlow) 2 ≤ 1 :=
  ⟨wb_input, wb_oriented, wb_feasible,
    c3_amended_validity 4 wbA [0, 1] [2, 3] wbFlow wb_input wb_oriented wb_feasible 2⟩

/-- Claim C4: for every feasible flow on a network constructed from a
symmetric, loop-free bipartite instance, an arc is selected iff its flow
exceeds 1/2, its tail is not the source, its head is not the sink, and it is
not the final `sink → source` arc; and for each selected arc `(u, v)` the
returned adjacency matrix has entries `(u, v)` and `(v, u)` both equal to 1. -/
theorem c4_selection_rule (n : ℕ) (A : ℕ → ℕ → ℚ) (nodes1 nodes2 : List ℕ)
    (f : ℕ × ℕ → ℚ) (H : BipartiteInput n A nodes1 nodes2)
    (hf : Feasible n A nodes1 nodes2 f) :
    (∀ a, a ∈ selectedArcs n A nodes1 nodes2 f
      ↔ a ∈ arcList n A nodes1 nodes2 ∧ (1 : ℚ) / 2 < f a ∧ a.1 ≠ sourceIdx n
          ∧ a.2 ≠ sinkIdx n ∧ a ≠ (sinkIdx n, sourceIdx n))
      ∧ ∀ a ∈ selectedArcs n A nodes1 nodes2 f,
          matchingMatrix n A nodes1 nodes2 f a.1 a.2 = 1
            ∧ matchingMatrix n A nodes1 nodes2 f a.2 a.1 = 1 := by
  constructor
  · intro a
    constructor
    · intro ha
      rcases (mem_selectedArcs_iff n A nodes1 nodes2 f H hf a).mp ha with ⟨ht, hflow⟩
      rcases (mem_triu_entries n A a).mp ht with ⟨h1, h2, -, -⟩
      refine ⟨triu_arc_mem n A nodes1 nodes2 a ht, hflow, ?_, ?_, ?_⟩
      · simp [sourceIdx]
        omega
      · simp [sinkIdx]
        omega
      · intro hcon
        have := congrArg Prod.fst hcon
        simp [sinkIdx] at this
        omega
    · rintro ⟨hmem, hflow, hsrc, hsnk, hret⟩
      apply (mem_selectedArcs_iff n A nodes1 nodes2 f H hf a).mpr
      rcases (mem_arcList n A nodes1 nodes2 a).mp hmem with ⟨h1, -⟩ | h | ⟨-, h2⟩ | h
      · exact absurd h1 hsrc
      · exact ⟨h, hflow⟩
      · exact absurd h2 hsnk
      · exact absurd h hret
  · intro a ha
    obtain ⟨x, y⟩ := a
    have hnodup := selectedArcs_nodup n A nodes1 nodes2 f H hf
    have hcount1 : (selectedArcs n A nodes1 nodes2 f).countP
        (fun p => decide (p = (x, y))) = 1 := by
      rw [List.countP_eq_length_filter,
        filter_eq_of_nodup (selectedArcs n A nodes1 nodes2 f) (x, y) hnodup,
        if_pos ha]
      rfl
    have hswap := swap_not_selected n A nodes1 nodes2 f H hf (x, y) ha
    have hcount0 : (selectedArcs n A nodes1 nodes2 f).countP
        (fun p => decide (p = (y, x))) = 0 := by
      rw [List.countP_eq_length_filter,
        filter_eq_of_nodup (selectedArcs n A nodes1 nodes2 f) (y, x) hnodup,
        if_neg hswap]
      rfl
    unfold matchingMatrix
    rw [hcount1, hcount0]
    norm_num

/-- Witness for claim C4: the selected arc (0,3) of the concrete scenario
produces unit entries at (0,3) and (3,0) of the returned matrix. -/
theorem c4_witness :
    BipartiteInput 4 wbA [0, 1] [2, 3] ∧ Feasible 4 wbA [0, 1] [2, 3] wbFlow
      ∧ matchingMatrix 4 wbA [0, 1] [2, 3] wbFlow 0 3 = 1
      ∧ matchingMatrix 4 wbA [0, 1] [2, 3] wbFlow 3 0 = 1 := by
  have h := (c4_selection_rule 4 wbA [0, 1] [2, 3] wbFlow wb_input wb_feasible).2
    (0, 3) (by rw [wb_selected]; decide)
  exact ⟨wb_input, wb_feasible, h.1, h.2⟩

/-- Claim C5: every network built by `_maximum_bipartite_matching_scipy` has
arc arrays of equal length `|N1| + |E| + |N2| + 1`; exactly the final arc has
infinite capacity, and exactly the final arc has cost −1 (it is the
`sink → source` arc); every other arc has capacity 1 and cost 0; the balance
vector is zero with one entry per node; and the synthetic source and sink are
indexed immediately after the real node indices. -/
theorem c5_network_invariants (n : ℕ) (A : ℕ → ℕ → ℚ) (nodes1 nodes2 : List ℕ) :
    (from_arc n A nodes1 nodes2).length
        = nodes1.length + (triu_entries n A).length + nodes2.length + 1
      ∧ (to_arc n A nodes1 nodes2).length = (from_arc n A nodes1 nodes2).length
      ∧ (capacity (from_arc n A nodes1 nodes2).length).length
          = (from_arc n A nodes1 nodes2).length
      ∧ (cost (from_arc n A nodes1 nodes2).length).length
          = (from_arc n A nodes1 nodes2).length
      ∧ (∀ i, i < (from_arc n A nodes1 nodes2).length →
          ((capacity (from_arc n A nodes1 nodes2).length)[i]? = some none
            ↔ i = (from_arc n A nodes1 nodes2).length - 1))
      ∧ (∀ i, i < (from_arc n A nodes1 nodes2).length →
          ((cost (from_arc n A nodes1 nodes2).length)[i]? = some (-1)
            ↔ i = (from_arc n A nodes1 nodes2).length - 1))
      ∧ (∀ i, i < (from_arc n A nodes1 nodes2).length - 1 →
          (capacity (from_arc n A nodes1 nodes2).length)[i]? = some (some 1)
            ∧ (cost (from_arc n A nodes1 nodes2).length)[i]? = some 0)
      ∧ (from_arc n A nodes1 nodes2)[(from_arc n A nodes1 nodes2).length - 1]?
          = some (sinkIdx n)
      ∧ (to_arc n A nodes1 nodes2)[(from_arc n A nodes1 nodes2).length - 1]?
          = some (sourceIdx n)
      ∧ (balance n).length = n + 2
      ∧ (∀ b ∈ balance n, b = 0)
      ∧ sourceIdx n = n ∧ sinkIdx n = n + 1 := by
  have hm := from_arc_length n A nodes1 nodes2
  refine ⟨hm, ?_, capacity_length _, cost_length _, ?_, ?_, ?_, ?_, ?_, ?_, ?_, rfl,
    rfl⟩
  · rw [to_arc_length, hm]
  · intro i hi
    rw [hm] at hi ⊢
    constructor
    · intro hcap
      by_contra hne
      rw [capacity_get_lt _ i (by omega)] at hcap
      simp at hcap
    · intro hieq
      rw [hieq, Nat.add_sub_cancel, capacity_get_last]
  · intro i hi
    rw [hm] at hi ⊢
    constructor
    · intro hcost
      by_contra hne
      rw [cost_get_lt _ i (by omega)] at hcost
      simp at hcost
    · intro hieq
      rw [hieq, Nat.add_sub_cancel, cost_get_last]
  · intro i hi
    rw [hm] at hi ⊢
    rw [Nat.add_sub_cancel] at hi
    exact ⟨capacity_get_lt _ i hi, cost_get_lt _ i hi⟩
  · rw [hm, Nat.add_sub_cancel]
    exact from_arc_last n A nodes1 nodes2
  · rw [hm, Nat.add_sub_cancel]
    exact to_arc_last n A nodes1 nodes2
  · simp [balance]
  · intro b hb
    exact List.eq_of_mem_replicate hb

/-- Claim C6 (the code, not the claim, is at fault): on the symmetric 2-node
adjacency with the single undirected edge between 0 and 1 (stored entries
(0,1) and (1,0)), `maximum_weighted_matching` creates one binary variable per
stored entry — two variables for the one edge — because the
upper-triangular reduction is missing; the code's own log message counts
edges as `nnz/2`, i.e. one per undirected edge. -/
theorem c6_code_bug_two_vars_per_edge :
    (wVars symEdgeEntries).length = 2
      ∧ (((wEdges symEdgeEntries).map undirKey).dedup).length = 1 := by
  decide

/-- Claim C7: on the symmetric 4-node path graph with weights
`(0,1) ↦ 1, (1,2) ↦ 5, (2,3) ↦ 1`, every optimal solution of the constructed
binary program selects exactly the undirected edge (1,2) (in one of its two
stored orientations), the returned subgraph is that single edge with weight
5, and the objective value is 5. -/
theorem c7_path_optimum (x : ℕ × ℕ → Bool) (hopt : wOptimal pathEntries x) :
    ((wSelected pathEntries x).map undirKey = [(1, 2)])
      ∧ (wResult pathEntries x = Except.ok [(1, 2, 5)]
          ∨ wResult pathEntries x = Except.ok [(2, 1, 5)])
      ∧ wObj pathEntries x = 5 := by
  rcases path_optimum_core x hopt with ⟨hsel, hobj⟩
  rcases hsel with h | h
  · refine ⟨by rw [h]; decide, Or.inl ?_, hobj⟩
    unfold wResult
    rw [h]
    rfl
  · refine ⟨by rw [h]; decide, Or.inr ?_, hobj⟩
    unfold wResult
    rw [h]
    rfl

/-- Witness for claim C7: the solution selecting the stored entry (1,2) is
optimal and yields the claimed output. -/
theorem c7_witness :
    wOptimal pathEntries pathOpt
      ∧ ((wSelected pathEntries pathOpt).map undirKey = [(1, 2)])
      ∧ (wResult pathEntries pathOpt = Except.ok [(1, 2, 5)]
          ∨ wResult pathEntries pathOpt = Except.ok [(2, 1, 5)])
      ∧ wObj pathEntries pathOpt = 5 := by
  have hopt : wOptimal pathEntries pathOpt := by
    refine ⟨pathOpt_feasible, ?_⟩
    intro y hy
    rw [pathOpt_obj]
    exact path_obj_le y hy
  have h := c7_path_optimum pathOpt hopt
  exact ⟨hopt, h.1, h.2.1, h.2.2⟩

/-- Claim C8: every row of the dataframe returned by the pandas path is a row
of the input table (with exactly the input's columns: the embedding returns
rows of the input row type, the appended code/join columns being projected
away by `result[frame.columns]`). -/
theorem c8_pandas_roundtrip {R : Type} (frame : List (ℕ × ℕ × R)) (fl : ℕ × ℕ → ℚ)
    (c : ℕ) (r : ℕ × ℕ × R)
    (hr : r ∈ (maximum_bipartite_matching_pandas frame fl c).1) : r ∈ frame :=
  pandas_rows_sub frame fl c r hr

/-- Witness for claim C8: a one-row table whose single edge is matched; the
output row is the input row. -/
theorem c8_witness :
    ((10, 20, ()) : ℕ × ℕ × Unit) ∈ (maximum_bipartite_matching_pandas pdFrame pdFlow 0).1
      ∧ ((10, 20, ()) : ℕ × ℕ × Unit) ∈ pdFrame :=
  ⟨pd_mem_output, c8_pandas_roundtrip pdFrame pdFlow 0 (10, 20, ()) pd_mem_output⟩

/-- Claim C9: an input that is none of the three recognized representations
makes `maximum_bipartite_matching` return the "Unknown graph type" error
immediately: no network is built and the environment-acquisition counter is
unchanged (`create_env` is never invoked). -/
theorem c9_unsupported_type (typeName : String) (flows : ℕ × ℕ → ℚ) (envCount : ℕ) :
    @maximum_bipartite_matching Unit (GraphInput.unsupported typeName) flows envCount
      = (Except.error ("Unknown graph type: " ++ typeName), envCount) :=
  rfl

/-- Claim C10: if no decision variable of `maximum_weighted_matching` is
selected (no solved value exceeds 0.5), result extraction raises
(`zip(*[])` unpacking fails) instead of returning an empty subgraph. -/
theorem c10_empty_selection_error (entries : List (ℕ × ℕ × ℚ)) (x : ℕ × ℕ → Bool)
    (hall : ∀ e ∈ wVars entries, x e = false) :
    wResult entries x = Except.error "not enough values to unpack" :=
  wResult_error entries x hall

/-- Witness for claim C10: the all-zero solution on the weighted path graph. -/
theorem c10_witness :
    (∀ e ∈ wVars pathEntries, (fun _ => false : ℕ × ℕ → Bool) e = false)
      ∧ wResult pathEntries (fun _ => false)
          = Except.error "not enough values to unpack" :=
  ⟨fun e _ => rfl,
    c10_empty_selection_error pathEntries (fun _ => false) (fun e _ => rfl)⟩

end GurobiMatching
